import Mathlib

set_option maxHeartbeats 1000000

/-!
Verification development for the printshop card pipeline.

The embedding models, at the level of character lists:
  * `parseCardInput` — the bulk line parser from `src/lib/moxfieldFormatter.ts`;
  * `formatForMoxfield` and `processBatch` — the formatter and batch resolver
    from the same module;
  * `lookupCard` — the per-card database lookup of the batch endpoint
    (`src/routes/api/cards/batch/+server.ts`), with the SQL
    `ORDER BY (released_at IS NULL) ASC, released_at ASC/DESC,
    CAST(collector_number AS INTEGER) ASC/DESC  LIMIT 1` clause embedded as an
    executable strict comparator `sortKeyLt` plus first-minimum selection
    `selectFirst`, and `LIKE '%w%'` embedded as `likeMatch`.

Strings are compared the way SQLite compares TEXT (byte-wise on UTF-8, which
coincides with code-point order), JavaScript string primitives (`trim`,
`split`, `toUpperCase` on ASCII data) are modelled by the corresponding
character-list operations, and the regular expressions of the parser are
unfolded into their deterministic matching behaviour.
-/

/-- The parsed form of one input line (`ParsedInputCard` in the source). -/
structure ParsedInputCard where
  name : String
  quantity : Nat
  foilStatus : String
  tags : String
deriving DecidableEq, Repr

/-- One catalog row (`Card` in the source); `finishes` is modelled as the
parsed form of the JSON array stored in the database column. -/
structure Card where
  id : String
  name : String
  set_code : String
  set_name : String
  collector_number : String
  released_at : Option String
  finishes : List String
deriving DecidableEq, Repr

/-- A catalog row together with the derived foil status
(`BatchResultCard` in the source). -/
structure BatchResultCard extends Card where
  foilStatus : String
deriving DecidableEq, Repr

/-- The lookup-result shape consumed by the formatter
(`CardLookupResult` in the source). -/
structure CardLookupResult where
  found : Bool
  card : Option BatchResultCard
deriving DecidableEq, Repr

/-- One item of the batch-lookup response. -/
structure BatchOutcome where
  found : Bool
  originalCard : ParsedInputCard
  result : Option BatchResultCard
deriving DecidableEq, Repr

/-- The batch-lookup response (`{ results }` in the source). -/
structure BatchResponse where
  results : List BatchOutcome
deriving DecidableEq, Repr

/-- One entry of the `failed` output list. -/
structure FailedCard where
  name : String
  reason : String
deriving DecidableEq, Repr

/-- JavaScript `s.split(sep)` for a single-character separator:
every separator occurrence splits, empty pieces are kept. -/
def splitOnChar (sep : Char) : List Char → List (List Char)
  | [] => [[]]
  | c :: cs =>
    if c = sep then [] :: splitOnChar sep cs
    else
      match splitOnChar sep cs with
      | [] => [[c]]
      | h :: t => (c :: h) :: t

/-- Drop trailing whitespace. -/
def dropTrailingWs (cs : List Char) : List Char :=
  (cs.reverse.dropWhile Char.isWhitespace).reverse

/-- JavaScript `s.trim()` on a character list. -/
def trimL (cs : List Char) : List Char :=
  dropTrailingWs (cs.dropWhile Char.isWhitespace)

/-- Numeric value of a decimal digit character. -/
def digitVal (c : Char) : Nat := c.toNat - 48

/-- `parseInt(ds, 10)` on a list of decimal digits. -/
def digitsToNat (ds : List Char) : Nat :=
  ds.foldl (fun acc c => 10 * acc + digitVal c) 0

/-- The decimal digit character for a value below ten. -/
def digitChar : Nat → Char
  | 0 => '0' | 1 => '1' | 2 => '2' | 3 => '3' | 4 => '4'
  | 5 => '5' | 6 => '6' | 7 => '7' | 8 => '8' | 9 => '9'
  | _ => '?'

/-- Fuelled decimal rendering of a natural number (the fuel argument only
bounds the recursion depth; `natRepr` always supplies enough). -/
def natReprAux : Nat → Nat → List Char
  | 0, _ => []
  | fuel + 1, n =>
    if n < 10 then [digitChar n]
    else natReprAux fuel (n / 10) ++ [digitChar (n % 10)]

/-- Decimal rendering of a natural number, as produced by the JavaScript
template interpolation of an integer quantity. -/
def natRepr (n : Nat) : List Char := natReprAux (n + 1) n

/-- `natRepr` packaged as a string. -/
def natStr (n : Nat) : String := String.mk (natRepr n)

/-- The quantity regular expression of the parser, anchored at the start:
one or more digits, an optional `x`/`X`, then at least one whitespace
character.  Returns the parsed quantity and the text after the matched
whitespace run. -/
def matchQuantity (cs : List Char) : Option (Nat × List Char) :=
  let ds := cs.takeWhile Char.isDigit
  if ds.isEmpty then none
  else
    match cs.dropWhile Char.isDigit with
    | [] => none
    | c :: rest =>
      if c = 'x' ∨ c = 'X' then
        match rest with
        | [] => none
        | w :: _ =>
          if w.isWhitespace then some (digitsToNat ds, rest.dropWhile Char.isWhitespace)
          else none
      else if c.isWhitespace then some (digitsToNat ds, rest.dropWhile Char.isWhitespace)
      else none

/-- The finish-marker regular expression of the parser, anchored at the end:
whitespace, `*F*` or `*E*` (case-insensitive), optional trailing whitespace.
Returns the uppercased marker letter and the text before the matched
whitespace run. -/
def matchFoil (cs : List Char) : Option (String × List Char) :=
  match cs.reverse.dropWhile Char.isWhitespace with
  | '*' :: f :: '*' :: w :: rest =>
    if (f = 'F' ∨ f = 'E' ∨ f = 'f' ∨ f = 'e') ∧ w.isWhitespace then
      some (String.mk [f.toUpper], ((w :: rest).dropWhile Char.isWhitespace).reverse)
    else none
  | _ => none

/-- Whether the set/collector regular expression
(whitespace, a parenthesized non-empty group, whitespace, a non-whitespace
token, optional trailing whitespace, end of text) matches the whole of `cs`. -/
def matchSetSuffixAt (cs : List Char) : Bool :=
  if (cs.takeWhile Char.isWhitespace).isEmpty then false
  else
    let r1 := cs.dropWhile Char.isWhitespace
    if r1.head? = some '(' then
      let r2 := r1.tail
      if (r2.takeWhile (fun c => c ≠ ')')).isEmpty then false
      else
        let r3 := r2.dropWhile (fun c => c ≠ ')')
        if r3.head? = some ')' then
          let r4 := r3.tail
          if (r4.takeWhile Char.isWhitespace).isEmpty then false
          else
            let r5 := r4.dropWhile Char.isWhitespace
            if (r5.takeWhile (fun c => !c.isWhitespace)).isEmpty then false
            else (r5.dropWhile (fun c => !c.isWhitespace)).all Char.isWhitespace
        else false
    else false

/-- Remove the leftmost (hence, because the pattern is end-anchored, the
outermost) match of the set/collector pattern, as JavaScript
`replace(/\s+\([^)]+\)\s+[^\s]+\s*$/i, '')` does. -/
def stripSetSuffix : List Char → List Char
  | [] => []
  | c :: cs => if matchSetSuffixAt (c :: cs) then [] else c :: stripSetSuffix cs

/-- Fuelled scanner for the global replacement
`replace(/\s+\/\s+/g, ' // ')`; the fuel only bounds the recursion depth. -/
def replaceSlashesF : Nat → List Char → List Char
  | 0, cs => cs
  | _ + 1, [] => []
  | fuel + 1, c :: rest =>
    if c.isWhitespace then
      match rest.dropWhile Char.isWhitespace with
      | '/' :: r2 =>
        match r2 with
        | w :: _ =>
          if w.isWhitespace then
            ' ' :: '/' :: '/' :: ' ' :: replaceSlashesF fuel (r2.dropWhile Char.isWhitespace)
          else c :: replaceSlashesF fuel rest
        | [] => c :: replaceSlashesF fuel rest
      | _ => c :: replaceSlashesF fuel rest
    else c :: replaceSlashesF fuel rest

/-- JavaScript `replace(/\s+\/\s+/g, ' // ')`: every whitespace-padded single
slash becomes a space-padded double slash. -/
def replaceSlashes (cs : List Char) : List Char := replaceSlashesF cs.length cs

/-- The tag normalisation the parser applies: everything after each `#` is
trimmed, re-prefixed with `#`, and the pieces are joined with single
spaces. -/
def normTagsL (ts : List Char) : List Char :=
  List.intercalate [' '] ((splitOnChar '#' ts).tail.map (fun t => '#' :: trimL t))

/-- One trimmed, non-blank line of `parseCardInput`; returns `none` when the
line reduces to an empty card name (the `continue` branch of the source). -/
def parseLine (line : List Char) : Option ParsedInputCard :=
  let parts := splitOnChar '#' line
  let lineWithoutTags := parts.headD []
  let tags := List.intercalate [' '] (parts.tail.map (fun t => '#' :: trimL t))
  let remaining0 := trimL lineWithoutTags
  let qr := matchQuantity remaining0
  let quantity := match qr with | some (q, _) => q | none => 1
  let remaining1 := match qr with | some (_, r) => trimL r | none => remaining0
  let fr := matchFoil remaining1
  let foilStatus := match fr with | some (f, _) => f | none => ""
  let remaining2 := match fr with | some (_, r) => trimL r | none => remaining1
  let remaining3 := trimL (stripSetSuffix remaining2)
  let cardName := replaceSlashes remaining3
  if cardName.isEmpty then none
  else some ⟨String.mk cardName, quantity, foilStatus, String.mk tags⟩

/-- `parseCardInput` from the source: split into lines, trim, drop blank
lines, parse each line, drop lines whose card name comes out empty. -/
def parseCardInput (input : String) : List ParsedInputCard :=
  (((splitOnChar '\n' input.toList).map trimL).filter (fun l => l.length > 0)).filterMap
    parseLine

/-- JavaScript `a || b` on strings (first operand unless it is empty). -/
def jsOr (a b : String) : String := if a = "" then b else a

/-- ASCII upper-casing of a string, character by character
(JavaScript `toUpperCase` on ASCII data). -/
def strUpper (s : String) : String := String.mk (s.toList.map Char.toUpper)

/-- `formatForMoxfield` from the source. -/
def formatForMoxfield (dbResult : CardLookupResult) (originalInput : ParsedInputCard) :
    String :=
  match dbResult.found, dbResult.card with
  | true, some card =>
    let setCode := strUpper card.set_code
    let foilStatus := jsOr originalInput.foilStatus (jsOr card.foilStatus "")
    let finishSuffix := if foilStatus = "" then "" else " *" ++ foilStatus ++ "*"
    let tagsSuffix := if originalInput.tags = "" then "" else " " ++ originalInput.tags
    natStr originalInput.quantity ++ " " ++ card.name ++ " (" ++ setCode ++ ") " ++
      card.collector_number ++ finishSuffix ++ tagsSuffix
  | _, _ => ""

/-- Modelled from the spec: the §4.2 rendered-line grammar
`<quantity> <canonicalName> (<SETCODE upper>) <collectorNumber>[ *<finish>*][ <tags>]`,
written independently of `formatForMoxfield` as a refinement target. -/
def moxfieldLine (q : Nat) (nm setU coll fin tags : String) : String :=
  natStr q ++ " " ++ nm ++ " (" ++ setU ++ ") " ++ coll ++
    (if fin = "" then "" else " *" ++ fin ++ "*") ++
    (if tags = "" then "" else " " ++ tags)

/-- Byte-wise (equivalently code-point-wise) strict lexicographic comparison,
as SQLite compares TEXT values. -/
def strLtL : List Char → List Char → Bool
  | [], [] => false
  | [], _ :: _ => true
  | _ :: _, [] => false
  | a :: as, b :: bs =>
    if a.toNat < b.toNat then true
    else if b.toNat < a.toNat then false
    else strLtL as bs

/-- SQLite `CAST(s AS INTEGER)`: optional leading whitespace, optional sign,
then the leading run of digits (zero when there is none). -/
def castInt (s : String) : Int :=
  let cs := s.toList.dropWhile Char.isWhitespace
  match cs with
  | '-' :: rest => - Int.ofNat (digitsToNat (rest.takeWhile Char.isDigit))
  | '+' :: rest => Int.ofNat (digitsToNat (rest.takeWhile Char.isDigit))
  | _ => Int.ofNat (digitsToNat (cs.takeWhile Char.isDigit))

/-- The release-date sort key; rows with `NULL` date all carry the same
placeholder at this level because the `IS NULL` flag is compared first. -/
def dateOf (c : Card) : String := c.released_at.getD ""

/-- The collector-number sort key, `CAST(collector_number AS INTEGER)`. -/
def collKey (c : Card) : Int := castInt c.collector_number

/-- The collector-number comparison of the `ORDER BY` clause:
ascending for `oldest` (the default), descending for `newest`. -/
def collLt (pol : String) (a b : Card) : Bool :=
  if pol = "newest" then decide (collKey b < collKey a)
  else decide (collKey a < collKey b)

/-- The strict `ORDER BY` comparison of the batch endpoint:
`(released_at IS NULL) ASC, released_at ASC, CAST(collector_number AS INTEGER) ASC`
for `oldest` (the default), with the second and third keys reversed for
`newest`.  `sortKeyLt pol a b` holds when row `a` sorts strictly before
row `b`. -/
def sortKeyLt (pol : String) (a b : Card) : Bool :=
  if a.released_at.isNone = b.released_at.isNone then
    if a.released_at.isNone then collLt pol a b
    else if dateOf a = dateOf b then collLt pol a b
    else if pol = "newest" then strLtL (dateOf b).toList (dateOf a).toList
    else strLtL (dateOf a).toList (dateOf b).toList
  else b.released_at.isNone

/-- `ORDER BY … LIMIT 1`: the first row of the list attaining the minimal
sort key (earlier rows win ties). -/
def selectFirst (pol : String) : List Card → Option Card
  | [] => none
  | c :: cs =>
    match selectFirst pol cs with
    | none => some c
    | some d => if sortKeyLt pol d c then some d else some c

/-- Fuelled SQL `LIKE` matching (`%` matches any sequence, `_` any single
character); the fuel only bounds the recursion depth. -/
def likeMatchF : Nat → List Char → List Char → Bool
  | 0, _, _ => false
  | _ + 1, [], t => t.isEmpty
  | fuel + 1, '%' :: ps, [] => likeMatchF fuel ps []
  | fuel + 1, '%' :: ps, c :: ts =>
    likeMatchF fuel ps (c :: ts) || likeMatchF fuel ('%' :: ps) ts
  | _ + 1, '_' :: _, [] => false
  | fuel + 1, '_' :: ps, _ :: ts => likeMatchF fuel ps ts
  | _ + 1, _ :: _, [] => false
  | fuel + 1, p :: ps, c :: ts => (p == c) && likeMatchF fuel ps ts

/-- SQL `LIKE` matching of a pattern against a text. -/
def likeMatch (p t : List Char) : Bool := likeMatchF (p.length + t.length + 1) p t

/-- SQLite `lower(…)` (ASCII case folding, as in SQLite without ICU). -/
def lowerL (cs : List Char) : List Char := cs.map Char.toLower

/-- The first word used for the `LIKE` fallback:
`cardName.split(/[\s,/]/)[0] || cardName`. -/
def firstWordOf (nameL : List Char) : List Char :=
  let fw := nameL.takeWhile (fun c => !(c.isWhitespace || c = ',' || c = '/'))
  if fw.isEmpty then nameL else fw

/-- The rows of the exact-match query:
`WHERE lower(name) = lower(?)` bound to the card name. -/
def exactMatches (rows : List Card) (nameL : List Char) : List Card :=
  rows.filter (fun c => decide (lowerL c.name.toList = lowerL nameL))

/-- The rows of the fallback query: `WHERE lower(name) LIKE lower(?)` bound
to `%firstWord%`. -/
def likeMatches (rows : List Card) (pat : List Char) : List Card :=
  rows.filter (fun c => likeMatch pat (lowerL c.name.toList))

/-- The foil status derived from the row's `finishes` array:
`F` when it includes `foil`, else `E` when it includes `etched`, else empty. -/
def derivedFoil (finishes : List String) : String :=
  if finishes.contains "foil" then "F"
  else if finishes.contains "etched" then "E"
  else ""

/-- `lookupCard` from the batch endpoint.  The database is modelled as either
an error (every query throws, so the surrounding `catch` fires) or the full
table of rows; the request is echoed back unchanged. -/
def lookupCard (inputCard : ParsedInputCard) (db : Except String (List Card))
    (sortOrder : String) : BatchOutcome :=
  match db with
  | .error _ => ⟨false, inputCard, none⟩
  | .ok rows =>
    let cardNameL := trimL inputCard.name.toList
    if cardNameL.isEmpty then ⟨false, inputCard, none⟩
    else
      let chosen :=
        match selectFirst sortOrder (exactMatches rows cardNameL) with
        | some c => some c
        | none =>
          let pat := '%' :: lowerL (firstWordOf cardNameL) ++ ['%']
          selectFirst sortOrder (likeMatches rows pat)
      match chosen with
      | none => ⟨false, inputCard, none⟩
      | some c => ⟨true, inputCard, some ⟨c, derivedFoil c.finishes⟩⟩

/-- The failure entry recorded for a not-found batch result. -/
def notFoundEntry (r : BatchOutcome) : FailedCard :=
  ⟨r.originalCard.name, "Card not found in database"⟩

/-- The result-processing loop of `processBatch`. -/
def processResults : List BatchOutcome → List String × List FailedCard
  | [] => ([], [])
  | r :: rs =>
    let rest := processResults rs
    match r.result with
    | some card =>
      if r.found then
        let formatted := formatForMoxfield ⟨true, some card⟩ r.originalCard
        if formatted = "" then rest else (formatted :: rest.1, rest.2)
      else (rest.1, notFoundEntry r :: rest.2)
    | none => (rest.1, notFoundEntry r :: rest.2)

/-- The failure reason taken from a thrown value:
`err instanceof Error ? err.message : 'Unknown error'`.  A thrown value is
modelled as `Option String` — `some m` when it is an `Error` carrying message
`m`, `none` otherwise. -/
def errMessage : Option String → String
  | some m => m
  | none => "Unknown error"

/-- `processBatch` from the source: run the batch lookup capability; on
success process each result, on rejection mark every request of the batch
failed with the thrown message. -/
def processBatch (parsedCards : List ParsedInputCard)
    (batchLookupFn : List ParsedInputCard → Except (Option String) BatchResponse) :
    List String × List FailedCard :=
  match batchLookupFn parsedCards with
  | .ok resp => processResults resp.results
  | .error e => ([], parsedCards.map (fun c => ⟨c.name, errMessage e⟩))

/-- The success entry a batch result contributes, when it contributes one. -/
def succEntry (r : BatchOutcome) : Option String :=
  match r.result with
  | some card =>
    if r.found then some (formatForMoxfield ⟨true, some card⟩ r.originalCard) else none
  | none => none

/-- The failure entry a batch result contributes, when it contributes one. -/
def failEntry (r : BatchOutcome) : Option FailedCard :=
  match r.result with
  | some _ => if r.found then none else some (notFoundEntry r)
  | none => some (notFoundEntry r)

/-- The request recovered by re-parsing a rendered line: the canonical name
replaces the requested name, and the effective finish replaces the requested
finish. -/
def roundReq (req : ParsedInputCard) (brc : BatchResultCard) : ParsedInputCard :=
  ⟨brc.name, req.quantity, jsOr req.foilStatus brc.foilStatus, req.tags⟩

/-! ### Concrete fixtures used by witnesses and counterexamples -/

/-- Fixture: the 1993 Island printing of the spec's ordering example. -/
def island1993 : Card :=
  ⟨"c1", "Island", "lea", "Limited Edition Alpha", "288", some "1993-08-05", ["nonfoil"]⟩

/-- Fixture: the 2011 Island printing of the spec's ordering example. -/
def island2011 : Card :=
  ⟨"c2", "Island", "m12", "Magic 2012", "234", some "2011-07-15", ["nonfoil", "foil"]⟩

/-- Fixture: an Island printing with unknown release date. -/
def islandNull : Card :=
  ⟨"c3", "Island", "tst", "Test Set", "1", none, ["nonfoil"]⟩

/-- Fixture: a catalog holding the three Island printings. -/
def islandCatalog : List Card := [islandNull, island2011, island1993]

/-- Fixture: a Serra Angel catalog row. -/
def serraCard : Card :=
  ⟨"c4", "Serra Angel", "3ed", "Revised Edition", "310", some "1994-04-11", ["nonfoil"]⟩

/-- Fixture: the lookup result built from `serraCard` (no foil finishes). -/
def serraResult : BatchResultCard := ⟨serraCard, ""⟩

/-- Fixture: a parsed request for Serra Angel with a tag. -/
def serraReq : ParsedInputCard := ⟨"serra angel", 4, "", "#Angels"⟩

/-- Fixture: a found batch outcome pairing `serraReq` with `serraResult`. -/
def wOutcome : BatchOutcome := ⟨true, serraReq, some serraResult⟩

/-- Fixture: a batch-lookup capability that always succeeds with `wOutcome`. -/
def wFn : List ParsedInputCard → Except (Option String) BatchResponse :=
  fun _ => .ok ⟨[wOutcome]⟩

/-- Fixture: a capability that rejects single-request batches with an error
carrying message `boom` and succeeds on other batches. -/
def mixedFn : List ParsedInputCard → Except (Option String) BatchResponse :=
  fun l => if l.length = 1 then .error (some "boom") else .ok ⟨[wOutcome]⟩

/-- Fixture: a catalog row whose name contains a space-padded single slash. -/
def cexCardSlash : Card :=
  ⟨"c5", "B / C", "s1", "Set One", "1", some "2000-01-01", []⟩

/-- Fixture: an older catalog row whose name shares the first word `B`. -/
def cexCardB : Card :=
  ⟨"c6", "B", "s2", "Set Two", "7", some "1990-01-01", []⟩

/-- Fixture: the catalog of the round-trip counterexample. -/
def cexRows : List Card := [cexCardSlash, cexCardB]

/-- Fixture: the request whose rendered line fails to round-trip. -/
def cexReq : ParsedInputCard := ⟨"B / C", 1, "", ""⟩

/-- Fixture: a one-row catalog holding only `serraCard`. -/
def serraRows : List Card := [serraCard]

/-! ### Order-theoretic facts about the embedded `ORDER BY` comparison -/

theorem char_toNat_inj {a b : Char} (h : a.toNat = b.toNat) : a = b := by
  have := congrArg Char.ofNat h
  rwa [Char.ofNat_toNat, Char.ofNat_toNat] at this

theorem strLtL_irrefl (l : List Char) : strLtL l l = false := by
  induction l with
  | nil => rfl
  | cons a as ih => simp [strLtL, ih]

theorem strLtL_asymm : ∀ {a b : List Char}, strLtL a b = true → strLtL b a = false := by
  intro a
  induction a with
  | nil =>
    intro b h
    cases b with
    | nil => simp [strLtL] at h
    | cons y ys => simp [strLtL]
  | cons x xs ih =>
    intro b h
    cases b with
    | nil => simp [strLtL] at h
    | cons y ys =>
      simp only [strLtL] at h ⊢
      by_cases h1 : x.toNat < y.toNat
      · have h2 : ¬ y.toNat < x.toNat := by omega
        simp [h1, h2]
      · by_cases h2 : y.toNat < x.toNat
        · simp [h1, h2] at h
        · simp only [if_neg h1, if_neg h2] at h ⊢
          exact ih h

theorem strLtL_trans :
    ∀ {a b c : List Char}, strLtL a b = true → strLtL b c = true → strLtL a c = true := by
  intro a
  induction a with
  | nil =>
    intro b c hab hbc
    cases b with
    | nil => simp [strLtL] at hab
    | cons y ys =>
      cases c with
      | nil => simp [strLtL] at hbc
      | cons z zs => simp [strLtL]
  | cons x xs ih =>
    intro b c hab hbc
    cases b with
    | nil => simp [strLtL] at hab
    | cons y ys =>
      cases c with
      | nil => simp [strLtL] at hbc
      | cons z zs =>
        simp only [strLtL] at hab hbc ⊢
        by_cases hxy : x.toNat < y.toNat
        · by_cases hyz : y.toNat < z.toNat
          · have : x.toNat < z.toNat := by omega
            simp [this]
          · by_cases hzy : z.toNat < y.toNat
            · simp [hyz, hzy] at hbc
            · have hy : y.toNat = z.toNat := by omega
              have : x.toNat < z.toNat := by omega
              simp [this]
        · by_cases hyx : y.toNat < x.toNat
          · simp [hxy, hyx] at hab
          · have hx : x.toNat = y.toNat := by omega
            by_cases hyz : y.toNat < z.toNat
            · have : x.toNat < z.toNat := by omega
              simp [this]
            · by_cases hzy : z.toNat < y.toNat
              · simp [hyz, hzy] at hbc
              · have hxz : ¬ x.toNat < z.toNat := by omega
                have hzx : ¬ z.toNat < x.toNat := by omega
                simp only [if_neg hxy, if_neg hyx] at hab
                simp only [if_neg hyz, if_neg hzy] at hbc
                simp only [if_neg hxz, if_neg hzx]
                exact ih hab hbc

theorem strLtL_eq_of_both_false :
    ∀ {a b : List Char}, strLtL a b = false → strLtL b a = false → a = b := by
  intro a
  induction a with
  | nil =>
    intro b hab _
    cases b with
    | nil => rfl
    | cons y ys => simp [strLtL] at hab
  | cons x xs ih =>
    intro b hab hba
    cases b with
    | nil => simp [strLtL] at hba
    | cons y ys =>
      simp only [strLtL] at hab hba
      by_cases hxy : x.toNat < y.toNat
      · simp [hxy] at hab
      · by_cases hyx : y.toNat < x.toNat
        · simp [hxy, hyx] at hba
        · simp only [if_neg hxy, if_neg hyx] at hab hba
          have hx : x = y := char_toNat_inj (by omega)
          rw [hx, ih hab hba]

theorem collLt_irrefl (pol : String) (a : Card) : collLt pol a a = false := by
  simp [collLt]

theorem collLt_asymm {pol : String} {a b : Card} (h : collLt pol a b = true) :
    collLt pol b a = false := by
  simp only [collLt] at h ⊢
  split at h <;> split <;> simp_all <;> omega

theorem collLt_cotrans {pol : String} {x a d : Card} (h : collLt pol x a = true) :
    collLt pol x d = true ∨ collLt pol d a = true := by
  simp only [collLt] at h ⊢
  split at h <;> simp_all <;> omega

theorem strLt_cotrans {u v w : List Char} (h : strLtL u v = true) :
    strLtL u w = true ∨ strLtL w v = true := by
  cases h1 : strLtL u w
  · cases h2 : strLtL w u
    · exact Or.inr ((strLtL_eq_of_both_false h1 h2) ▸ h)
    · exact Or.inr (strLtL_trans h2 h)
  · exact Or.inl rfl

theorem strLt_tri {u v : List Char} (h : u ≠ v) :
    strLtL u v = true ∨ strLtL v u = true := by
  cases h1 : strLtL u v
  · cases h2 : strLtL v u
    · exact absurd (strLtL_eq_of_both_false h1 h2) h
    · exact Or.inr rfl
  · exact Or.inl rfl

theorem strLt_ne {u v : List Char} (h : strLtL u v = true) : u ≠ v := by
  intro hc
  rw [hc, strLtL_irrefl] at h
  exact Bool.false_ne_true h

theorem string_ext_toList {u v : String} (h : u.toList = v.toList) : u = v :=
  String.ext h

theorem sortKeyLt_irrefl (pol : String) (a : Card) : sortKeyLt pol a a = false := by
  simp [sortKeyLt, collLt_irrefl, strLtL_irrefl]

theorem sortKeyLt_asymm {pol : String} {a b : Card} (h : sortKeyLt pol a b = true) :
    sortKeyLt pol b a = false := by
  by_cases hab : a.released_at.isNone = b.released_at.isNone
  · have hba : b.released_at.isNone = a.released_at.isNone := hab.symm
    by_cases hn : a.released_at.isNone
    · rw [sortKeyLt, if_pos hab, if_pos hn] at h
      rw [sortKeyLt, if_pos hba, if_pos (hab ▸ hn)]
      exact collLt_asymm h
    · have hbn : ¬ b.released_at.isNone = true := fun hc => hn (hab.trans hc)
      rw [sortKeyLt, if_pos hab, if_neg hn] at h
      rw [sortKeyLt, if_pos hba, if_neg hbn]
      by_cases hd : dateOf a = dateOf b
      · rw [if_pos hd] at h
        rw [if_pos hd.symm]
        exact collLt_asymm h
      · rw [if_neg hd] at h
        rw [if_neg (Ne.symm hd)]
        by_cases hpol : pol = "newest"
        · rw [if_pos hpol] at h ⊢
          exact strLtL_asymm h
        · rw [if_neg hpol] at h ⊢
          exact strLtL_asymm h
  · rw [sortKeyLt, if_neg hab] at h
    have hba : ¬ b.released_at.isNone = a.released_at.isNone := fun hc => hab hc.symm
    rw [sortKeyLt, if_neg hba]
    cases ha : a.released_at.isNone
    · rfl
    · exact absurd (ha.trans h.symm) hab

theorem sortKeyLt_cotrans {pol : String} {x a d : Card} (h : sortKeyLt pol x a = true) :
    sortKeyLt pol x d = true ∨ sortKeyLt pol d a = true := by
  by_cases hxa : x.released_at.isNone = a.released_at.isNone
  · by_cases hn : x.released_at.isNone
    · -- x and a both have unknown dates
      have han : a.released_at.isNone = true := hxa ▸ hn
      rw [sortKeyLt, if_pos hxa, if_pos hn] at h
      by_cases hd : d.released_at.isNone
      · rcases collLt_cotrans (d := d) h with h' | h'
        · exact Or.inl (by rw [sortKeyLt, if_pos (hn.trans hd.symm), if_pos hn]; exact h')
        · exact Or.inr (by rw [sortKeyLt, if_pos (hd.trans han.symm), if_pos hd]; exact h')
      · -- d dated, a unknown: d sorts before a at the flag level
        refine Or.inr ?_
        rw [sortKeyLt, if_neg (fun hc : d.released_at.isNone = a.released_at.isNone =>
          hd (hc.trans han))]
        exact han
    · -- x and a both dated
      have han : ¬ a.released_at.isNone = true := fun hc => hn (hxa.trans hc)
      rw [sortKeyLt, if_pos hxa, if_neg hn] at h
      by_cases hd : d.released_at.isNone
      · -- d unknown: x sorts before d at the flag level
        refine Or.inl ?_
        rw [sortKeyLt, if_neg (fun hc : x.released_at.isNone = d.released_at.isNone =>
          hn (hc.trans hd))]
        exact hd
      · -- all three dated
        have hxd : x.released_at.isNone = d.released_at.isNone := by
          cases h1 : x.released_at.isNone <;> cases h2 : d.released_at.isNone <;> simp_all
        have hda : d.released_at.isNone = a.released_at.isNone := by
          cases h1 : d.released_at.isNone <;> cases h2 : a.released_at.isNone <;> simp_all
        rw [sortKeyLt, if_pos hxd, if_neg hn, sortKeyLt, if_pos hda, if_neg hd]
        by_cases hdeq : dateOf x = dateOf a
        · rw [if_pos hdeq] at h
          by_cases hxdd : dateOf x = dateOf d
          · have hdda : dateOf d = dateOf a := hxdd.symm.trans hdeq
            rw [if_pos hxdd, if_pos hdda]
            exact collLt_cotrans h
          · have hdda : dateOf d ≠ dateOf a := fun hc => hxdd (hdeq.trans hc.symm)
            rw [if_neg hxdd, if_neg hdda]
            have htri := strLt_tri (u := (dateOf x).toList) (v := (dateOf d).toList)
              (fun hc => hxdd (string_ext_toList hc))
            by_cases hpol : pol = "newest"
            · rw [if_pos hpol, if_pos hpol]
              rcases htri with h' | h'
              · exact Or.inr (hdeq ▸ h')
              · exact Or.inl h'
            · rw [if_neg hpol, if_neg hpol]
              rcases htri with h' | h'
              · exact Or.inl h'
              · exact Or.inr (hdeq ▸ h')
        · rw [if_neg hdeq] at h
          by_cases hpol : pol = "newest"
          · rw [if_pos hpol] at h
            rw [if_pos hpol, if_pos hpol]
            rcases strLt_cotrans (w := (dateOf d).toList) h with h' | h'
            · have : dateOf d ≠ dateOf a := fun hc =>
                strLt_ne h' (congrArg String.toList hc.symm)
              rw [if_neg this]
              exact Or.inr h'
            · have : dateOf x ≠ dateOf d := fun hc =>
                strLt_ne h' (congrArg String.toList hc.symm)
              rw [if_neg this]
              exact Or.inl h'
          · rw [if_neg hpol] at h
            rw [if_neg hpol, if_neg hpol]
            rcases strLt_cotrans (w := (dateOf d).toList) h with h' | h'
            · have : dateOf x ≠ dateOf d := fun hc => strLt_ne h' (congrArg String.toList hc)
              rw [if_neg this]
              exact Or.inl h'
            · have : dateOf d ≠ dateOf a := fun hc => strLt_ne h' (congrArg String.toList hc)
              rw [if_neg this]
              exact Or.inr h'
  · -- x and a differ at the flag level: a unknown, x dated
    rw [sortKeyLt, if_neg hxa] at h
    have hxn : x.released_at.isNone = false := by
      cases h1 : x.released_at.isNone
      · rfl
      · exact absurd (h1.trans h.symm) hxa
    by_cases hd : d.released_at.isNone
    · refine Or.inl ?_
      rw [sortKeyLt, if_neg (fun hc : x.released_at.isNone = d.released_at.isNone =>
        (by rw [hxn] at hc; rw [hd] at hc; exact Bool.false_ne_true hc))]
      exact hd
    · refine Or.inr ?_
      rw [sortKeyLt, if_neg (fun hc : d.released_at.isNone = a.released_at.isNone =>
        hd (hc.trans h))]
      exact h

/-! ### Facts about `ORDER BY … LIMIT 1` selection -/

theorem sortKeyLt_not_lt_trans {pol : String} {e d a : Card}
    (hed : sortKeyLt pol e d = false) (hda : sortKeyLt pol d a = false) :
    sortKeyLt pol e a = false := by
  cases hea : sortKeyLt pol e a
  · rfl
  · rcases sortKeyLt_cotrans (d := d) hea with h' | h'
    · rw [hed] at h'
      exact (Bool.false_ne_true h').elim
    · rw [hda] at h'
      exact (Bool.false_ne_true h').elim

theorem selectFirst_eq_none {pol : String} :
    ∀ {l : List Card}, selectFirst pol l = none ↔ l = [] := by
  intro l
  cases l with
  | nil => simp [selectFirst]
  | cons a as =>
    cases hs : selectFirst pol as with
    | none => simp [selectFirst, hs]
    | some d =>
      simp only [selectFirst, hs]
      split <;> simp

theorem selectFirst_mem {pol : String} :
    ∀ {l : List Card} {c : Card}, selectFirst pol l = some c → c ∈ l := by
  intro l
  induction l with
  | nil => intro c h; simp [selectFirst] at h
  | cons a as ih =>
    intro c h
    cases hs : selectFirst pol as with
    | none =>
      simp only [selectFirst, hs] at h
      injection h with h
      exact h ▸ List.mem_cons_self a as
    | some d =>
      simp only [selectFirst, hs] at h
      by_cases hb : sortKeyLt pol d a
      · rw [if_pos hb] at h
        injection h with h
        exact List.mem_cons_of_mem a (ih (h ▸ hs))
      · rw [if_neg hb] at h
        injection h with h
        exact h ▸ List.mem_cons_self a as

theorem selectFirst_min {pol : String} :
    ∀ {m : List Card} {c : Card}, selectFirst pol m = some c →
      ∀ x ∈ m, sortKeyLt pol x c = false := by
  intro m
  induction m with
  | nil => intro c h; simp [selectFirst] at h
  | cons a as ih =>
    intro c h x hx
    cases hs : selectFirst pol as with
    | none =>
      have hnil : as = [] := selectFirst_eq_none.mp hs
      subst hnil
      simp only [selectFirst, hs] at h
      injection h with h
      subst h
      rcases List.mem_singleton.mp hx with rfl
      exact sortKeyLt_irrefl _ _
    | some d =>
      simp only [selectFirst, hs] at h
      by_cases hb : sortKeyLt pol d a
      · rw [if_pos hb] at h
        injection h with h
        subst h
        rcases List.mem_cons.mp hx with rfl | hx'
        · exact sortKeyLt_asymm hb
        · exact ih hs x hx'
      · rw [if_neg hb] at h
        injection h with h
        subst h
        rcases List.mem_cons.mp hx with rfl | hx'
        · exact sortKeyLt_irrefl _ _
        · have hfalse : sortKeyLt pol d a = false := by
            cases hdc : sortKeyLt pol d a
            · rfl
            · exact absurd hdc hb
          exact sortKeyLt_not_lt_trans (ih hs x hx') hfalse

theorem selectFirst_first {pol : String} :
    ∀ {m : List Card} {c : Card}, selectFirst pol m = some c →
      ∃ l₁ l₂, m = l₁ ++ c :: l₂ ∧ ∀ x ∈ l₁, sortKeyLt pol c x = true := by
  intro m
  induction m with
  | nil => intro c h; simp [selectFirst] at h
  | cons a as ih =>
    intro c h
    cases hs : selectFirst pol as with
    | none =>
      simp only [selectFirst, hs] at h
      injection h with h
      subst h
      exact ⟨[], as, rfl, by simp⟩
    | some d =>
      simp only [selectFirst, hs] at h
      by_cases hb : sortKeyLt pol d a
      · rw [if_pos hb] at h
        injection h with h
        subst h
        rcases ih hs with ⟨l₁, l₂, hsplit, hbeats⟩
        refine ⟨a :: l₁, l₂, by simp [hsplit], ?_⟩
        intro x hx
        rcases List.mem_cons.mp hx with rfl | hx'
        · exact hb
        · exact hbeats x hx'
      · rw [if_neg hb] at h
        injection h with h
        subst h
        exact ⟨[], as, rfl, by simp⟩

theorem mem_filter_of_imp {p q : Card → Bool} {l : List Card} {e : Card}
    (himp : ∀ x, p x = true → q x = true) (he : e ∈ l.filter p) : e ∈ l.filter q := by
  rcases List.mem_filter.mp he with ⟨hmem, hp⟩
  exact List.mem_filter.mpr ⟨hmem, himp e hp⟩

theorem selectFirst_filter {pol : String} {p q : Card → Bool} :
    ∀ {l : List Card} {c : Card},
      selectFirst pol (l.filter q) = some c → p c = true →
      (∀ x, p x = true → q x = true) →
      selectFirst pol (l.filter p) = some c := by
  intro l
  induction l with
  | nil => intro c hq _ _; simp [selectFirst] at hq
  | cons a as ih =>
    intro c hq hpc himp
    by_cases hqa : q a = true
    · rw [List.filter_cons_of_pos hqa] at hq
      cases hs : selectFirst pol (as.filter q) with
      | none =>
        have hqe : as.filter q = [] := selectFirst_eq_none.mp hs
        simp only [selectFirst, hs] at hq
        injection hq with hq
        subst hq
        have hpe : as.filter p = [] := by
          cases hfp : as.filter p with
          | nil => rfl
          | cons e es =>
            exfalso
            have hin : e ∈ as.filter q :=
              mem_filter_of_imp himp (hfp ▸ List.mem_cons_self e es)
            rw [hqe] at hin
            exact List.not_mem_nil e hin
        rw [List.filter_cons_of_pos hpc]
        simp [selectFirst, hpe]
      | some d =>
        simp only [selectFirst, hs] at hq
        by_cases hb : sortKeyLt pol d a
        · rw [if_pos hb] at hq
          injection hq with hq
          subst hq
          have hrec := ih hs hpc himp
          by_cases hpa : p a = true
          · rw [List.filter_cons_of_pos hpa]
            simp only [selectFirst, hrec]
            rw [if_pos hb]
          · rw [List.filter_cons_of_neg (by simp [hpa]), hrec]
        · rw [if_neg hb] at hq
          injection hq with hq
          subst hq
          rw [List.filter_cons_of_pos hpc]
          cases hfp : selectFirst pol (as.filter p) with
          | none => simp [selectFirst, hfp]
          | some e =>
            simp only [selectFirst, hfp]
            have he : e ∈ as.filter q :=
              mem_filter_of_imp himp (selectFirst_mem hfp)
            have hed : sortKeyLt pol e d = false := selectFirst_min hs e he
            have hda : sortKeyLt pol d a = false := by
              cases hdc : sortKeyLt pol d a
              · rfl
              · exact absurd hdc hb
            rw [sortKeyLt_not_lt_trans hed hda]
            simp
    · have hpa : p a ≠ true := fun hc => hqa (himp a hc)
      rw [List.filter_cons_of_neg (by simp [hqa])] at hq
      rw [List.filter_cons_of_neg (by simp [hpa])]
      exact ih hq hpc himp

/-! ### Character and list facts used by the parser proofs -/

theorem takeWhile_all_append {p : Char → Bool} {xs : List Char} {y : Char} {ys : List Char}
    (hxs : ∀ c ∈ xs, p c = true) (hy : p y = false) :
    (xs ++ y :: ys).takeWhile p = xs := by
  induction xs with
  | nil => simp [List.takeWhile_cons, hy]
  | cons a as ih =>
    have ha : p a = true := hxs a (List.mem_cons_self a as)
    simp only [List.cons_append, List.takeWhile_cons, ha, if_true]
    rw [ih (fun c hc => hxs c (List.mem_cons_of_mem a hc))]

theorem dropWhile_all_append {p : Char → Bool} {xs : List Char} {y : Char} {ys : List Char}
    (hxs : ∀ c ∈ xs, p c = true) (hy : p y = false) :
    (xs ++ y :: ys).dropWhile p = y :: ys := by
  induction xs with
  | nil => simp [List.dropWhile_cons, hy]
  | cons a as ih =>
    have ha : p a = true := hxs a (List.mem_cons_self a as)
    simp only [List.cons_append, List.dropWhile_cons, ha, if_true]
    exact ih (fun c hc => hxs c (List.mem_cons_of_mem a hc))

theorem dropWhile_eq_self_of_head {p : Char → Bool} {l : List Char}
    (h : ∀ c, l.head? = some c → p c = false) : l.dropWhile p = l := by
  cases l with
  | nil => rfl
  | cons a as => simp [List.dropWhile_cons, h a rfl]

theorem takeWhile_eq_nil_of_head {p : Char → Bool} {l : List Char}
    (h : ∀ c, l.head? = some c → p c = false) : l.takeWhile p = [] := by
  cases l with
  | nil => rfl
  | cons a as => simp [List.takeWhile_cons, h a rfl]

theorem dropTrailingWs_eq_self {l : List Char}
    (h : ∀ c, l.getLast? = some c → c.isWhitespace = false) : dropTrailingWs l = l := by
  unfold dropTrailingWs
  rw [dropWhile_eq_self_of_head, List.reverse_reverse]
  intro c hc
  exact h c (by rwa [List.head?_reverse] at hc)

theorem trimL_eq_self {l : List Char}
    (hh : ∀ c, l.head? = some c → c.isWhitespace = false)
    (hl : ∀ c, l.getLast? = some c → c.isWhitespace = false) : trimL l = l := by
  unfold trimL
  rw [dropWhile_eq_self_of_head hh, dropTrailingWs_eq_self hl]

theorem dropTrailingWs_append_ws {l : List Char} {w : Char} (hw : w.isWhitespace = true) :
    dropTrailingWs (l ++ [w]) = dropTrailingWs l := by
  unfold dropTrailingWs
  rw [List.reverse_append]
  simp [List.dropWhile_cons, hw]

theorem trimL_append_ws {l : List Char} {w : Char} (hw : w.isWhitespace = true)
    (hh : ∀ c, l.head? = some c → c.isWhitespace = false) :
    trimL (l ++ [w]) = dropTrailingWs l := by
  unfold trimL
  cases l with
  | nil =>
    simp only [List.nil_append]
    rw [List.dropWhile_cons]
    simp [hw, dropTrailingWs]
  | cons a as =>
    rw [List.cons_append, List.dropWhile_cons]
    simp only [hh a rfl, Bool.false_eq_true, if_false]
    rw [← List.cons_append]
    exact dropTrailingWs_append_ws hw

theorem digitChar_isDigit {n : Nat} (h : n < 10) : (digitChar n).isDigit = true := by
  interval_cases n <;> rfl

theorem digitVal_digitChar {n : Nat} (h : n < 10) : digitVal (digitChar n) = n := by
  interval_cases n <;> rfl

theorem digitsToNat_append_one (xs : List Char) (c : Char) :
    digitsToNat (xs ++ [c]) = 10 * digitsToNat xs + digitVal c := by
  simp [digitsToNat, List.foldl_append]

theorem natReprAux_digits :
    ∀ (fuel n : Nat), ∀ c ∈ natReprAux fuel n, c.isDigit = true := by
  intro fuel
  induction fuel with
  | zero => intro n c hc; simp [natReprAux] at hc
  | succ fuel ih =>
    intro n c hc
    by_cases hn : n < 10
    · rw [natReprAux, if_pos hn] at hc
      rcases List.mem_singleton.mp hc with rfl
      exact digitChar_isDigit hn
    · rw [natReprAux, if_neg hn] at hc
      rcases List.mem_append.mp hc with hc' | hc'
      · exact ih (n / 10) c hc'
      · rcases List.mem_singleton.mp hc' with rfl
        exact digitChar_isDigit (Nat.mod_lt n (by omega))

theorem natRepr_digits {n : Nat} : ∀ c ∈ natRepr n, c.isDigit = true :=
  natReprAux_digits (n + 1) n

theorem natReprAux_ne_nil {fuel n : Nat} (h : fuel ≠ 0) : natReprAux fuel n ≠ [] := by
  cases fuel with
  | zero => exact absurd rfl h
  | succ fuel =>
    rw [natReprAux]
    split
    · simp
    · simp

theorem natRepr_ne_nil (n : Nat) : natRepr n ≠ [] :=
  natReprAux_ne_nil (Nat.succ_ne_zero n)

theorem digitsToNat_natReprAux : ∀ (fuel n : Nat), n < fuel →
    digitsToNat (natReprAux fuel n) = n := by
  intro fuel
  induction fuel with
  | zero => intro n h; omega
  | succ fuel ih =>
    intro n h
    by_cases hn : n < 10
    · rw [natReprAux, if_pos hn]
      show digitsToNat [digitChar n] = n
      have : digitsToNat [digitChar n] = digitVal (digitChar n) := by
        simp [digitsToNat]
      rw [this, digitVal_digitChar hn]
    · rw [natReprAux, if_neg hn]
      rw [digitsToNat_append_one]
      have hdiv : n / 10 < fuel := by
        have h1 : n / 10 < n := Nat.div_lt_self (by omega) (by omega)
        omega
      rw [ih (n / 10) hdiv, digitVal_digitChar (Nat.mod_lt n (by omega))]
      omega

theorem digitsToNat_natRepr (n : Nat) : digitsToNat (natRepr n) = n :=
  digitsToNat_natReprAux (n + 1) n (Nat.lt_succ_self n)

theorem isDigit_char_facts {c : Char} (h : c.isDigit = true) :
    c.isWhitespace = false ∧ c ≠ '#' ∧ c ≠ '*' ∧ c ≠ '(' ∧ c ≠ ')' ∧ c ≠ '\n' ∧
      c ≠ '/' ∧ c ≠ 'x' ∧ c ≠ 'X' := by
  refine ⟨?_, ?_, ?_, ?_, ?_, ?_, ?_, ?_, ?_⟩
  · cases hw : c.isWhitespace
    · rfl
    · exfalso
      simp only [Char.isWhitespace, Bool.or_eq_true, decide_eq_true_eq] at hw
      rcases hw with ((rfl | rfl) | rfl) | rfl <;> exact absurd h (by decide)
  all_goals intro hc
  all_goals subst hc
  all_goals exact absurd h (by decide)

/-! ### Splitting, matching and stripping lemmas -/

theorem splitOnChar_not_mem {sep : Char} :
    ∀ {xs : List Char}, sep ∉ xs → splitOnChar sep xs = [xs] := by
  intro xs
  induction xs with
  | nil => intro _; rfl
  | cons a as ih =>
    intro h
    have ha : a ≠ sep := fun hc => h (hc ▸ List.mem_cons_self a as)
    have has : sep ∉ as := fun hc => h (List.mem_cons_of_mem a hc)
    rw [splitOnChar, if_neg ha, ih has]

theorem splitOnChar_append_sep {sep : Char} :
    ∀ {xs ys : List Char}, sep ∉ xs →
      splitOnChar sep (xs ++ sep :: ys) = xs :: splitOnChar sep ys := by
  intro xs ys
  induction xs with
  | nil =>
    intro _
    simp only [List.nil_append]
    rw [splitOnChar, if_pos rfl]
  | cons a as ih =>
    intro h
    have ha : a ≠ sep := fun hc => h (hc ▸ List.mem_cons_self a as)
    have has : sep ∉ as := fun hc => h (List.mem_cons_of_mem a hc)
    rw [List.cons_append, splitOnChar, if_neg ha, ih has]

theorem splitOnChar_cons_sep {sep : Char} (ys : List Char) :
    splitOnChar sep (sep :: ys) = [] :: splitOnChar sep ys := by
  rw [splitOnChar, if_pos rfl]

theorem matchQuantity_none_of_head {cs : List Char}
    (h : ∀ c, cs.head? = some c → c.isDigit = false) : matchQuantity cs = none := by
  rw [matchQuantity]
  simp only [takeWhile_eq_nil_of_head h, List.isEmpty_nil, if_true]

theorem matchQuantity_digits_space {ds rest : List Char}
    (hne : ds ≠ []) (hdig : ∀ c ∈ ds, c.isDigit = true)
    (hh : ∀ c, rest.head? = some c → c.isWhitespace = false) :
    matchQuantity (ds ++ ' ' :: rest) = some (digitsToNat ds, rest) := by
  have h1 : (ds ++ ' ' :: rest).takeWhile Char.isDigit = ds :=
    takeWhile_all_append hdig (by decide)
  have h2 : (ds ++ ' ' :: rest).dropWhile Char.isDigit = ' ' :: rest :=
    dropWhile_all_append hdig (by decide)
  rw [matchQuantity]
  simp only [h1, h2]
  rw [if_neg (by simpa using hne)]
  have hx : ¬ ((' ' : Char) = 'x' ∨ (' ' : Char) = 'X') := by decide
  rw [if_neg hx, if_pos (by decide)]
  rw [dropWhile_eq_self_of_head hh]

theorem matchQuantity_all_digits {ds : List Char}
    (hne : ds ≠ []) (hdig : ∀ c ∈ ds, c.isDigit = true) :
    matchQuantity ds = none := by
  rw [matchQuantity]
  have ht : ds.takeWhile Char.isDigit = ds := List.takeWhile_eq_self_iff.mpr hdig
  have hd : ds.dropWhile Char.isDigit = [] := by
    have := congrArg List.length (List.takeWhile_append_dropWhile Char.isDigit ds)
    rw [ht] at this
    have hlen : (ds.dropWhile Char.isDigit).length = 0 := by
      simp only [List.length_append] at this
      omega
    exact List.eq_nil_of_length_eq_zero hlen
  simp only [ht, hd]
  rw [if_neg (by simpa using hne)]

theorem matchQuantity_digits_x {ds : List Char} {x : Char}
    (hne : ds ≠ []) (hdig : ∀ c ∈ ds, c.isDigit = true)
    (hx : x.isDigit = false) :
    matchQuantity (ds ++ [x]) = (if x = 'x' ∨ x = 'X' then none
      else if x.isWhitespace then some (digitsToNat ds, []) else none) := by
  rw [matchQuantity]
  simp only [takeWhile_all_append hdig hx, dropWhile_all_append hdig hx]
  rw [if_neg (by simpa using hne)]
  by_cases hxx : x = 'x' ∨ x = 'X'
  · rw [if_pos hxx, if_pos hxx]
  · rw [if_neg hxx, if_neg hxx]
    by_cases hw : x.isWhitespace
    · rw [if_pos hw, if_pos hw]
      rfl
    · rw [if_neg hw, if_neg hw]

theorem matchFoil_nil : matchFoil [] = none := rfl

theorem matchFoil_none_of_getLast {l : List Char} {c : Char}
    (hlast : l.getLast? = some c) (hws : c.isWhitespace = false) (hstar : c ≠ '*') :
    matchFoil l = none := by
  have hgl : l.reverse.head? = some c := by rw [List.head?_reverse, hlast]
  obtain ⟨t, ht⟩ : ∃ t, l.reverse = c :: t := by
    cases hr : l.reverse with
    | nil => rw [hr] at hgl; exact absurd hgl (by simp)
    | cons a ts =>
      rw [hr] at hgl
      injection hgl with h2
      exact ⟨ts, by rw [h2]⟩
  rw [matchFoil, ht, List.dropWhile_cons]
  simp only [hws, Bool.false_eq_true, if_false]
  split
  · rename_i f w rest heq
    exfalso
    injection heq with h h'
    simp_all
  · rfl

theorem matchFoil_append_marker {l : List Char} {f : Char}
    (hf : f = 'F' ∨ f = 'E')
    (hlast : ∀ c, l.getLast? = some c → c.isWhitespace = false) :
    matchFoil (l ++ [' ', '*', f, '*']) = some (String.mk [f], l) := by
  have hrev : (l ++ [' ', '*', f, '*']).reverse = '*' :: f :: '*' :: ' ' :: l.reverse := by
    simp
  rw [matchFoil, hrev, List.dropWhile_cons]
  simp only [show ('*' : Char).isWhitespace = false from rfl, Bool.false_eq_true, if_false]
  have hcond : (f = 'F' ∨ f = 'E' ∨ f = 'f' ∨ f = 'e') ∧ (' ' : Char).isWhitespace = true := by
    rcases hf with rfl | rfl
    · exact ⟨Or.inl rfl, rfl⟩
    · exact ⟨Or.inr (Or.inl rfl), rfl⟩
  rw [if_pos hcond]
  have hdrop : (' ' :: l.reverse).dropWhile Char.isWhitespace = l.reverse := by
    rw [List.dropWhile_cons]
    simp only [show (' ' : Char).isWhitespace = true from rfl, if_true]
    apply dropWhile_eq_self_of_head
    intro c hc
    exact hlast c (by rwa [List.head?_reverse] at hc)
  rw [hdrop, List.reverse_reverse]
  have hupper : f.toUpper = f := by
    rcases hf with rfl | rfl <;> rfl
  rw [hupper]

theorem matchSetSuffixAt_false_of_head {cs : List Char}
    (h : ∀ c, cs.head? = some c → c.isWhitespace = false) :
    matchSetSuffixAt cs = false := by
  rw [matchSetSuffixAt]
  rw [takeWhile_eq_nil_of_head h]
  simp

theorem stripSetSuffix_eq_self {l : List Char}
    (h : ∀ c ∈ l, c.isWhitespace = false) : stripSetSuffix l = l := by
  induction l with
  | nil => rfl
  | cons a as ih =>
    rw [stripSetSuffix,
      if_neg (by
        rw [matchSetSuffixAt_false_of_head]
        · simp
        · intro c hc
          injection hc with hc
          exact hc ▸ h a (List.mem_cons_self a as))]
    rw [ih (fun c hc => h c (List.mem_cons_of_mem a hc))]

theorem dropWhile_ws_first_nonws :
    ∀ {n : List Char} {rest : List Char},
      (∃ z ∈ n, z.isWhitespace = false) →
      ∃ z t, (n ++ rest).dropWhile Char.isWhitespace = z :: t ∧ z ∈ n ∧
        z.isWhitespace = false := by
  intro n
  induction n with
  | nil => intro rest h; simp at h
  | cons a as ih =>
    intro rest h
    by_cases ha : a.isWhitespace
    · have has : ∃ z ∈ as, z.isWhitespace = false := by
        rcases h with ⟨z, hz, hzw⟩
        rcases List.mem_cons.mp hz with rfl | hz'
        · rw [ha] at hzw; exact absurd hzw (by simp)
        · exact ⟨z, hz', hzw⟩
      rcases @ih rest has with ⟨z, t, hdrop, hzmem, hzw⟩
      refine ⟨z, t, ?_, List.mem_cons_of_mem a hzmem, hzw⟩
      rw [List.cons_append, List.dropWhile_cons, if_pos ha]
      exact hdrop
    · refine ⟨a, as ++ rest, ?_, List.mem_cons_self a as, by simpa using ha⟩
      rw [List.cons_append, List.dropWhile_cons]
      simp [ha]

theorem matchSetSuffixAt_false_of_ws_head {x : Char} {m rest : List Char}
    (hx : x.isWhitespace = true)
    (hnz : ∃ z ∈ m, z.isWhitespace = false)
    (hpar : ∀ z ∈ m, z ≠ '(') :
    matchSetSuffixAt (x :: m ++ rest) = false := by
  rcases @dropWhile_ws_first_nonws m rest hnz with ⟨z, t, hdrop, hzmem, hzw⟩
  have hdrop' : (x :: (m ++ rest)).dropWhile Char.isWhitespace = z :: t := by
    rw [List.dropWhile_cons, if_pos hx]
    exact hdrop
  have hcond : ¬ ((x :: (m ++ rest)).takeWhile Char.isWhitespace).isEmpty = true := by
    simp [List.takeWhile_cons, hx]
  rw [matchSetSuffixAt, List.cons_append, if_neg hcond]
  simp only [hdrop', List.head?_cons]
  rw [if_neg (by simp [hpar z hzmem])]

theorem matchSetSuffixAt_boundary {setU coll : List Char}
    (hsne : setU ≠ []) (hsp : ∀ c ∈ setU, c ≠ ')')
    (hcne : coll ≠ []) (hcw : ∀ c ∈ coll, c.isWhitespace = false) :
    matchSetSuffixAt (' ' :: '(' :: (setU ++ ')' :: ' ' :: coll)) = true := by
  have hdrop1 : (' ' :: '(' :: (setU ++ ')' :: ' ' :: coll)).dropWhile Char.isWhitespace =
      '(' :: (setU ++ ')' :: ' ' :: coll) := by
    rw [List.dropWhile_cons, if_pos (by decide), List.dropWhile_cons]
    simp [show ('(' : Char).isWhitespace = false from rfl]
  have htake : (setU ++ ')' :: ' ' :: coll).takeWhile (fun c => c ≠ ')') = setU := by
    apply takeWhile_all_append
    · intro c hc
      simp [hsp c hc]
    · simp
  have hdrop2 : (setU ++ ')' :: ' ' :: coll).dropWhile (fun c => c ≠ ')') =
      ')' :: ' ' :: coll := by
    apply dropWhile_all_append
    · intro c hc
      simp [hsp c hc]
    · simp
  have hdrop3 : (' ' :: coll).dropWhile Char.isWhitespace = coll := by
    rw [List.dropWhile_cons, if_pos (by decide)]
    apply dropWhile_eq_self_of_head
    intro c hc
    cases coll with
    | nil => simp at hc
    | cons b bs =>
      injection hc with hc
      exact hc ▸ hcw b (List.mem_cons_self b bs)
  have htake2 : coll.takeWhile (fun c => !c.isWhitespace) = coll :=
    List.takeWhile_eq_self_iff.mpr (by intro c hc; simp [hcw c hc])
  have hdrop4 : coll.dropWhile (fun c => !c.isWhitespace) = [] := by
    have hlen := congrArg List.length
      (List.takeWhile_append_dropWhile (fun c => !c.isWhitespace) coll)
    rw [htake2] at hlen
    simp only [List.length_append] at hlen
    exact List.eq_nil_of_length_eq_zero (by omega)
  have hcond1 : ¬ (((' ' :: '(' :: (setU ++ ')' :: ' ' :: coll)).takeWhile
      Char.isWhitespace).isEmpty = true) := by
    simp [List.takeWhile_cons]
  rw [matchSetSuffixAt, if_neg hcond1]
  simp only [hdrop1, List.head?_cons, Option.some.injEq, if_pos rfl, List.tail_cons]
  rw [htake]
  rw [if_neg (show ¬ (setU.isEmpty = true) by simpa using hsne)]
  simp only [hdrop2, List.head?_cons, Option.some.injEq, if_pos rfl, List.tail_cons]
  rw [if_neg (show ¬ (((' ' :: coll).takeWhile Char.isWhitespace).isEmpty = true) by
    simp [List.takeWhile_cons])]
  simp only [hdrop3]
  rw [if_neg (show ¬ ((coll.takeWhile (fun c => !c.isWhitespace)).isEmpty = true) by
    simpa [htake2] using hcne), hdrop4]
  rfl

theorem stripSetSuffix_walk :
    ∀ {n : List Char} {mid : List Char},
      '(' ∉ n → (∀ c, n.getLast? = some c → c.isWhitespace = false) →
      matchSetSuffixAt (' ' :: '(' :: mid) = true →
      stripSetSuffix (n ++ ' ' :: '(' :: mid) = n := by
  intro n
  induction n with
  | nil =>
    intro mid _ _ hmatch
    rw [List.nil_append, stripSetSuffix, if_pos hmatch]
  | cons x n' ih =>
    intro mid hpar hlast hmatch
    have hpar' : '(' ∉ n' := fun hc => hpar (List.mem_cons_of_mem x hc)
    have hfalse : matchSetSuffixAt ((x :: n') ++ ' ' :: '(' :: mid) = false := by
      by_cases hx : x.isWhitespace
      · cases n' with
        | nil =>
          exfalso
          have hxl := hlast x rfl
          rw [hx] at hxl
          exact absurd hxl (by decide)
        | cons b bs =>
          have hgl : ∃ c, (b :: bs).getLast? = some c := by
            cases hq : (b :: bs).getLast? with
            | none => exact absurd (List.getLast?_eq_none_iff.mp hq) (by simp)
            | some c => exact ⟨c, rfl⟩
          rcases hgl with ⟨c, hc⟩
          have hcw : c.isWhitespace = false :=
            hlast c (by rw [List.getLast?_cons_cons]; exact hc)
          have hmem : c ∈ b :: bs := List.mem_of_getLast?_eq_some hc
          exact matchSetSuffixAt_false_of_ws_head hx ⟨c, hmem, hcw⟩
            (fun z hz hc' => hpar' (hc' ▸ hz))
      · apply matchSetSuffixAt_false_of_head
        intro c hc
        injection hc with hc
        exact hc ▸ (by simpa using hx)
    rw [List.cons_append, stripSetSuffix,
      if_neg (by rw [← List.cons_append, hfalse]; simp)]
    have hlast' : ∀ c, n'.getLast? = some c → c.isWhitespace = false := by
      intro c hc
      cases n' with
      | nil => simp at hc
      | cons b bs =>
        exact hlast c (by rw [List.getLast?_cons_cons]; exact hc)
    rw [ih hpar' hlast' hmatch]

theorem replaceSlashesF_no_ws :
    ∀ (fuel : Nat) {l : List Char}, (∀ c ∈ l, c.isWhitespace = false) →
      replaceSlashesF fuel l = l := by
  intro fuel
  induction fuel with
  | zero => intro l _; rfl
  | succ fuel ih =>
    intro l h
    cases l with
    | nil => rfl
    | cons c rest =>
      rw [replaceSlashesF, if_neg (by simp [h c (List.mem_cons_self c rest)])]
      rw [ih (fun d hd => h d (List.mem_cons_of_mem c hd))]

theorem replaceSlashes_no_ws {l : List Char} (h : ∀ c ∈ l, c.isWhitespace = false) :
    replaceSlashes l = l :=
  replaceSlashesF_no_ws l.length h

/-! ### Formatter facts -/

theorem jsOr_empty_right (a : String) : jsOr a "" = a := by
  unfold jsOr
  split
  · rename_i h
    exact h.symm
  · rfl

theorem formatForMoxfield_found (c : BatchResultCard) (orig : ParsedInputCard) :
    formatForMoxfield ⟨true, some c⟩ orig =
      moxfieldLine orig.quantity c.name (strUpper c.set_code) c.collector_number
        (if orig.foilStatus = "" then c.foilStatus else orig.foilStatus) orig.tags := by
  show (let setCode := strUpper c.set_code
    let foilStatus := jsOr orig.foilStatus (jsOr c.foilStatus "")
    let finishSuffix := if foilStatus = "" then "" else " *" ++ foilStatus ++ "*"
    let tagsSuffix := if orig.tags = "" then "" else " " ++ orig.tags
    natStr orig.quantity ++ " " ++ c.name ++ " (" ++ setCode ++ ") " ++
      c.collector_number ++ finishSuffix ++ tagsSuffix) = _
  rw [moxfieldLine]
  simp only [jsOr_empty_right]
  have : jsOr orig.foilStatus c.foilStatus =
      if orig.foilStatus = "" then c.foilStatus else orig.foilStatus := rfl
  rw [this]

theorem formatForMoxfield_eq (res : CardLookupResult) (orig : ParsedInputCard)
    (c : BatchResultCard) (hf : res.found = true) (hc : res.card = some c) :
    formatForMoxfield res orig =
      moxfieldLine orig.quantity c.name (strUpper c.set_code) c.collector_number
        (if orig.foilStatus = "" then c.foilStatus else orig.foilStatus) orig.tags := by
  cases res with
  | mk found card =>
    simp only at hf hc
    subst hf
    subst hc
    exact formatForMoxfield_found c orig

theorem moxfieldLine_length (q : Nat) (nm setU coll fin tags : String) :
    1 ≤ (moxfieldLine q nm setU coll fin tags).length := by
  rw [moxfieldLine]
  have h1 : (" " : String).length = 1 := rfl
  simp only [String.length_append]
  omega

theorem formatForMoxfield_ne_empty (c : BatchResultCard) (orig : ParsedInputCard) :
    formatForMoxfield ⟨true, some c⟩ orig ≠ "" := by
  intro hc
  have h1 := moxfieldLine_length orig.quantity c.name (strUpper c.set_code)
    c.collector_number
    (if orig.foilStatus = "" then c.foilStatus else orig.foilStatus) orig.tags
  rw [← formatForMoxfield_found, hc] at h1
  simp at h1

/-! ### Batch-processing facts -/

theorem processResults_eq (rs : List BatchOutcome) :
    processResults rs = (rs.filterMap succEntry, rs.filterMap failEntry) := by
  induction rs with
  | nil => rfl
  | cons r rs ih =>
    cases hr : r.result with
    | none =>
      have hsucc : succEntry r = none := by simp [succEntry, hr]
      have hfail : failEntry r = some (notFoundEntry r) := by simp [failEntry, hr]
      rw [processResults]
      simp only [hr, ih]
      rw [List.filterMap_cons_none hsucc,
        List.filterMap_cons_some (f := failEntry) hfail]
    | some card =>
      by_cases hf : r.found = true
      · have hne := formatForMoxfield_ne_empty card r.originalCard
        have hsucc : succEntry r =
            some (formatForMoxfield ⟨true, some card⟩ r.originalCard) := by
          simp [succEntry, hr, hf]
        have hfail : failEntry r = none := by simp [failEntry, hr, hf]
        rw [processResults]
        simp only [hr, ih, hf, if_true]
        rw [if_neg hne]
        rw [List.filterMap_cons_some (f := succEntry) hsucc,
          List.filterMap_cons_none hfail]
      · have hf' : r.found = false := by
          cases hff : r.found
          · rfl
          · exact absurd hff hf
        have hsucc : succEntry r = none := by simp [succEntry, hr, hf']
        have hfail : failEntry r = some (notFoundEntry r) := by
          simp [failEntry, hr, hf']
        rw [processResults]
        simp only [hr, hf', ih, Bool.false_eq_true, if_false]
        rw [List.filterMap_cons_none hsucc,
          List.filterMap_cons_some (f := failEntry) hfail]

theorem succEntry_failEntry_partition (r : BatchOutcome) :
    (succEntry r).isSome = (failEntry r).isNone := by
  cases hr : r.result with
  | none => simp [succEntry, failEntry, hr]
  | some card =>
    by_cases hf : r.found = true
    · simp [succEntry, failEntry, hr, hf]
    · simp [succEntry, failEntry, hr, hf]

theorem filterMap_partition_length (rs : List BatchOutcome) :
    (rs.filterMap succEntry).length + (rs.filterMap failEntry).length = rs.length := by
  induction rs with
  | nil => rfl
  | cons r rs ih =>
    have hpart := succEntry_failEntry_partition r
    cases hs : succEntry r with
    | none =>
      rw [hs] at hpart
      have hfail : ∃ e, failEntry r = some e := by
        cases hq : failEntry r with
        | none => rw [hq] at hpart; simp at hpart
        | some e => exact ⟨e, rfl⟩
      rcases hfail with ⟨e, he⟩
      rw [List.filterMap_cons_none hs, List.filterMap_cons_some (f := failEntry) he]
      simp only [List.length_cons]
      omega
    | some s =>
      rw [hs] at hpart
      have hfail : failEntry r = none := by
        cases hq : failEntry r with
        | none => rfl
        | some e => rw [hq] at hpart; simp at hpart
      rw [List.filterMap_cons_some (f := succEntry) hs, List.filterMap_cons_none hfail]
      simp only [List.length_cons]
      omega

/-! ### Lookup computation and inversion -/

theorem lookupCard_exact {req : ParsedInputCard} {rows : List Card} {pol : String}
    {c : Card}
    (hne : ¬ (trimL req.name.toList).isEmpty = true)
    (hsel : selectFirst pol (exactMatches rows (trimL req.name.toList)) = some c) :
    lookupCard req (.ok rows) pol = ⟨true, req, some ⟨c, derivedFoil c.finishes⟩⟩ := by
  simp only [lookupCard, if_neg hne, hsel]

theorem lookupCard_inversion {req : ParsedInputCard} {rows : List Card} {pol : String}
    {brc : BatchResultCard}
    (h : (lookupCard req (.ok rows) pol).result = some brc) :
    ∃ c : Card, brc = ⟨c, derivedFoil c.finishes⟩ ∧
      (selectFirst pol (exactMatches rows (trimL req.name.toList)) = some c ∨
       (selectFirst pol (exactMatches rows (trimL req.name.toList)) = none ∧
        selectFirst pol (likeMatches rows
          ('%' :: lowerL (firstWordOf (trimL req.name.toList)) ++ ['%'])) = some c)) := by
  simp only [lookupCard] at h
  by_cases he : (trimL req.name.toList).isEmpty = true
  · rw [if_pos he] at h
    simp at h
  · rw [if_neg he] at h
    cases h1 : selectFirst pol (exactMatches rows (trimL req.name.toList)) with
    | some c =>
      simp only [h1] at h
      injection h with h
      exact ⟨c, h.symm, Or.inl rfl⟩
    | none =>
      simp only [h1] at h
      cases h2 : selectFirst pol (likeMatches rows
          ('%' :: lowerL (firstWordOf (trimL req.name.toList)) ++ ['%'])) with
      | none => simp only [h2] at h; simp at h
      | some c =>
        simp only [h2] at h
        injection h with h
        exact ⟨c, h.symm, Or.inr ⟨rfl, rfl⟩⟩

/-! ### Claims -/

/-- C1: for every request whose lookup result is found with a non-null printing
record, the rendered output line is exactly the spec grammar
`<quantity> <canonicalName> (<SETCODE upper>) <collectorNumber>[ *<finish>*][ <tags>]`:
the finish suffix appears only when the effective finish (the requested finish
when non-empty, else the catalog default) is non-empty, the tags suffix only
when the request's tags are non-empty, quantity and tags come verbatim from the
original parsed request, and canonical name, uppercased set code and collector
number come from the catalog record. -/
theorem claim_C1 (dbResult : CardLookupResult) (orig : ParsedInputCard)
    (c : BatchResultCard) (hf : dbResult.found = true) (hc : dbResult.card = some c) :
    formatForMoxfield dbResult orig =
      moxfieldLine orig.quantity c.name (strUpper c.set_code) c.collector_number
        (if orig.foilStatus = "" then c.foilStatus else orig.foilStatus) orig.tags :=
  formatForMoxfield_eq dbResult orig c hf hc

/-- C1 witness: the theorem applied to a concrete found result, with the
rendered line evaluated. -/
theorem claim_C1_witness :
    formatForMoxfield ⟨true, some serraResult⟩ serraReq =
      moxfieldLine serraReq.quantity serraResult.name (strUpper serraResult.set_code)
        serraResult.collector_number
        (if serraReq.foilStatus = "" then serraResult.foilStatus
          else serraReq.foilStatus) serraReq.tags ∧
    formatForMoxfield ⟨true, some serraResult⟩ serraReq =
      "4 Serra Angel (3ED) 310 #Angels" :=
  ⟨claim_C1 ⟨true, some serraResult⟩ serraReq serraResult rfl rfl, by decide⟩

/-- C3: the effective finish rendered in the output equals the request's
requested finish when that is non-empty and otherwise the catalog-derived
default; the default computed by the lookup is `F` when the printing's
available finishes include `foil`, else `E` when they include `etched`, else
empty; and a request with requested finish `F` always renders the `*F*`
marker regardless of the catalog default. -/
theorem claim_C3 :
    (∀ (req : ParsedInputCard) (rows : List Card) (pol : String)
        (brc : BatchResultCard),
        (lookupCard req (.ok rows) pol).result = some brc →
        brc.foilStatus = (if brc.finishes.contains "foil" then "F"
          else if brc.finishes.contains "etched" then "E" else "")) ∧
    (∀ (orig : ParsedInputCard) (c : BatchResultCard),
        formatForMoxfield ⟨true, some c⟩ orig =
          moxfieldLine orig.quantity c.name (strUpper c.set_code) c.collector_number
            (if orig.foilStatus = "" then c.foilStatus else orig.foilStatus)
            orig.tags) ∧
    (∀ (orig : ParsedInputCard) (c : BatchResultCard), orig.foilStatus = "F" →
        formatForMoxfield ⟨true, some c⟩ orig =
          moxfieldLine orig.quantity c.name (strUpper c.set_code) c.collector_number
            "F" orig.tags) := by
  refine ⟨?_, ?_, ?_⟩
  · intro req rows pol brc h
    rcases lookupCard_inversion h with ⟨c, rfl, _⟩
    rfl
  · intro orig c
    exact formatForMoxfield_found c orig
  · intro orig c hF
    rw [formatForMoxfield_found c orig, hF]
    rw [if_neg (by decide)]

/-- C3 witness: a request with requested finish `F` on a printing whose
derived default is empty still renders the `*F*` marker. -/
theorem claim_C3_witness :
    (lookupCard serraReq (.ok [serraCard]) "oldest").result = some serraResult ∧
    serraResult.foilStatus = (if serraResult.finishes.contains "foil" then "F"
      else if serraResult.finishes.contains "etched" then "E" else "") ∧
    formatForMoxfield ⟨true, some serraResult⟩ ⟨"serra angel", 4, "F", ""⟩ =
      moxfieldLine 4 serraResult.name (strUpper serraResult.set_code)
        serraResult.collector_number "F" "" ∧
    formatForMoxfield ⟨true, some serraResult⟩ ⟨"serra angel", 4, "F", ""⟩ =
      "4 Serra Angel (3ED) 310 *F*" := by
  refine ⟨by decide, ?_, ?_, by decide⟩
  · exact claim_C3.1 serraReq [serraCard] "oldest" serraResult (by decide)
  · exact claim_C3.2.2 ⟨"serra angel", 4, "F", ""⟩ serraResult rfl

/-- C10: an individual card lookup over a failing database is caught and
returned as a not-found outcome with a null printing, identical to the
outcome over an empty catalog, so the downstream resolver reports it with
reason `Card not found in database` and the error message `e` never appears. -/
theorem claim_C10 (req : ParsedInputCard) (e : String) (pol : String) :
    lookupCard req (.error e) pol = ⟨false, req, none⟩ ∧
    lookupCard req (.error e) pol = lookupCard req (.ok []) pol ∧
    processResults [lookupCard req (.error e) pol] =
      ([], [⟨req.name, "Card not found in database"⟩]) := by
  refine ⟨rfl, ?_, rfl⟩
  by_cases he : (trimL req.name.toList).isEmpty = true <;>
    simp [lookupCard, he, exactMatches, likeMatches, selectFirst]

/-- C5: when the batch lookup capability returns exactly one result per
request, every result contributes an entry to exactly one of the succeeded or
failed lists, and the two lists together have exactly one entry per request. -/
theorem claim_C5 (cards : List ParsedInputCard)
    (fn : List ParsedInputCard → Except (Option String) BatchResponse)
    (resp : BatchResponse) (hok : fn cards = .ok resp)
    (hlen : resp.results.length = cards.length) :
    processBatch cards fn =
      (resp.results.filterMap succEntry, resp.results.filterMap failEntry) ∧
    (∀ r ∈ resp.results, (succEntry r).isSome = (failEntry r).isNone) ∧
    (processBatch cards fn).1.length + (processBatch cards fn).2.length =
      cards.length := by
  have h1 : processBatch cards fn = processResults resp.results := by
    rw [processBatch, hok]
  refine ⟨by rw [h1, processResults_eq], fun r _ => succEntry_failEntry_partition r, ?_⟩
  rw [h1, processResults_eq]
  rw [filterMap_partition_length, hlen]

/-- C5 witness: a one-request batch with a successful lookup lands in the
succeeded list only, and the counts add up. -/
theorem claim_C5_witness :
    processBatch [serraReq] wFn =
      ([wOutcome].filterMap succEntry, [wOutcome].filterMap failEntry) ∧
    (processBatch [serraReq] wFn).1.length + (processBatch [serraReq] wFn).2.length = 1 ∧
    processBatch [serraReq] wFn = (["4 Serra Angel (3ED) 310 #Angels"], []) := by
  have h := claim_C5 [serraReq] wFn ⟨[wOutcome]⟩ rfl rfl
  exact ⟨h.1, h.2.2, by decide⟩

/-- C6: if the batch lookup capability rejects, every request of the batch
appears in the failed list with the thrown message as reason (`Unknown error`
when the thrown value carries none), the succeeded list stays empty, and a
batch on which the same capability succeeds still processes normally. -/
theorem claim_C6 (cards : List ParsedInputCard)
    (fn : List ParsedInputCard → Except (Option String) BatchResponse)
    (e : Option String) (herr : fn cards = .error e) :
    processBatch cards fn = ([], cards.map (fun c => ⟨c.name, errMessage e⟩)) ∧
    (processBatch cards fn).2.length = cards.length ∧
    (∀ m : String, errMessage (some m) = m) ∧
    errMessage none = "Unknown error" ∧
    (∀ (cards₂ : List ParsedInputCard) (resp : BatchResponse),
      fn cards₂ = .ok resp → processBatch cards₂ fn = processResults resp.results) := by
  refine ⟨by rw [processBatch, herr], ?_, fun m => rfl, rfl, ?_⟩
  · rw [processBatch, herr]
    simp
  · intro cards₂ resp hok
    rw [processBatch, hok]

/-- C6 witness: a capability that rejects a one-request batch with message
`boom` yields exactly that failure entry, while a two-request batch on the
same capability succeeds. -/
theorem claim_C6_witness :
    processBatch [serraReq] mixedFn =
      ([], [⟨serraReq.name, errMessage (some "boom")⟩]) ∧
    (processBatch [serraReq] mixedFn).2.length = 1 ∧
    errMessage (some "boom") = "boom" ∧
    errMessage none = "Unknown error" ∧
    processBatch [serraReq, serraReq] mixedFn = processResults [wOutcome] := by
  have h := claim_C6 [serraReq] mixedFn (some "boom") rfl
  refine ⟨?_, h.2.1, h.2.2.1 "boom", h.2.2.2.1, ?_⟩
  · have h1 := h.1
    simpa using h1
  · exact h.2.2.2.2 [serraReq, serraReq] ⟨[wOutcome]⟩ rfl

/-- C2: for either sort policy, the printing selected is a first minimum of
the candidate list under the embedded `ORDER BY` comparison — it belongs to
the list, nothing in the list sorts strictly before it, and it strictly
precedes everything placed before it; printings with unknown release date
sort after every dated printing regardless of policy, so an unknown-date
printing is never selected when any dated printing matches; and among known
dates `oldest` orders release date ascending then collector number ascending
(numerically via `CAST`) while `newest` orders both descending. -/
theorem claim_C2 (pol : String) (_hpol : pol = "oldest" ∨ pol = "newest") :
    (∀ (l : List Card) (c : Card), selectFirst pol l = some c →
        c ∈ l ∧ (∀ x ∈ l, sortKeyLt pol x c = false) ∧
        ∃ l₁ l₂, l = l₁ ++ c :: l₂ ∧ ∀ x ∈ l₁, sortKeyLt pol c x = true) ∧
    (∀ (l : List Card) (c : Card), selectFirst pol l = some c →
        c.released_at = none → ∀ x ∈ l, x.released_at = none) ∧
    (∀ a b : Card, a.released_at = none → b.released_at ≠ none →
        sortKeyLt pol b a = true ∧ sortKeyLt pol a b = false) ∧
    (∀ (a b : Card) (da db : String), a.released_at = some da →
        b.released_at = some db →
        ((sortKeyLt "oldest" a b = true ↔
            (strLtL da.toList db.toList = true ∨
              (da = db ∧ castInt a.collector_number < castInt b.collector_number))) ∧
         (sortKeyLt "newest" a b = true ↔
            (strLtL db.toList da.toList = true ∨
              (da = db ∧ castInt b.collector_number < castInt a.collector_number))))) := by
  have hnull : ∀ (q : String) (a b : Card), a.released_at = none →
      b.released_at ≠ none → sortKeyLt q b a = true ∧ sortKeyLt q a b = false := by
    intro q a b ha hb
    have han : a.released_at.isNone = true := by rw [ha]; rfl
    have hbn : b.released_at.isNone = false := by
      cases hbb : b.released_at
      · exact absurd hbb hb
      · rfl
    constructor
    · rw [sortKeyLt, if_neg (by rw [hbn, han]; exact Bool.false_ne_true)]
      exact han
    · rw [sortKeyLt, if_neg (by rw [hbn, han]; intro hcc; exact Bool.false_ne_true hcc.symm)]
      exact hbn
  refine ⟨?_, ?_, hnull pol, ?_⟩
  · intro l c hsel
    exact ⟨selectFirst_mem hsel, selectFirst_min hsel, selectFirst_first hsel⟩
  · intro l c hsel hc x hx
    cases hxr : x.released_at with
    | none => rfl
    | some d =>
      exfalso
      have hbeats : sortKeyLt pol x c = true :=
        (hnull pol c x hc (by rw [hxr]; intro hcc; cases hcc)).1
      have := selectFirst_min hsel x hx
      rw [this] at hbeats
      exact Bool.false_ne_true hbeats
  · intro a b da db ha hb
    have han : a.released_at.isNone = false := by rw [ha]; rfl
    have hbn : b.released_at.isNone = false := by rw [hb]; rfl
    have hda : dateOf a = da := by rw [dateOf, ha]; rfl
    have hdb : dateOf b = db := by rw [dateOf, hb]; rfl
    constructor
    · rw [sortKeyLt, if_pos (by rw [han, hbn]), if_neg (by rw [han]; exact Bool.false_ne_true),
        hda, hdb]
      by_cases hdd : da = db
      · rw [if_pos hdd, collLt, if_neg (by decide)]
        simp only [decide_eq_true_eq]
        constructor
        · intro h
          exact Or.inr ⟨hdd, h⟩
        · intro h
          rcases h with h | ⟨_, h⟩
          · rw [hdd, strLtL_irrefl] at h
            exact absurd h Bool.false_ne_true
          · exact h
      · rw [if_neg hdd, if_neg (by decide)]
        constructor
        · intro h
          exact Or.inl h
        · intro h
          rcases h with h | ⟨h, _⟩
          · exact h
          · exact absurd h hdd
    · rw [sortKeyLt, if_pos (by rw [han, hbn]), if_neg (by rw [han]; exact Bool.false_ne_true),
        hda, hdb]
      by_cases hdd : da = db
      · rw [if_pos hdd, collLt, if_pos rfl]
        simp only [decide_eq_true_eq]
        constructor
        · intro h
          exact Or.inr ⟨hdd, h⟩
        · intro h
          rcases h with h | ⟨_, h⟩
          · rw [hdd, strLtL_irrefl] at h
            exact absurd h Bool.false_ne_true
          · exact h
      · rw [if_neg hdd, if_pos rfl]
        constructor
        · intro h
          exact Or.inl h
        · intro h
          rcases h with h | ⟨h, _⟩
          · exact h
          · exact absurd h hdd

/-- C2 witness: on the Island catalog, `oldest` selects the 1993 printing and
`newest` the 2011 printing; the unknown-date printing never sorts before
either selected printing. -/
theorem claim_C2_witness :
    selectFirst "oldest" islandCatalog = some island1993 ∧
    selectFirst "newest" islandCatalog = some island2011 ∧
    island1993 ∈ islandCatalog ∧
    sortKeyLt "oldest" islandNull island1993 = false ∧
    sortKeyLt "oldest" island2011 island1993 = false ∧
    sortKeyLt "newest" islandNull island2011 = false := by
  have h1 := (claim_C2 "oldest" (Or.inl rfl)).1 islandCatalog island1993 (by decide)
  have h2 := (claim_C2 "newest" (Or.inr rfl)).1 islandCatalog island2011 (by decide)
  exact ⟨by decide, by decide, h1.1, h1.2.1 islandNull (by decide),
    h1.2.1 island2011 (by decide), h2.2.1 islandNull (by decide)⟩

/-- C7: parsing `1 Aetherflux Reservoir (KHM) 311 *F* #ComboPiece` yields
exactly one request with quantity 1, name `Aetherflux Reservoir`, requested
finish `F` and tags `#ComboPiece`; the parenthesized set/collector group is
discarded rather than retained. -/
theorem claim_C7 :
    parseCardInput "1 Aetherflux Reservoir (KHM) 311 *F* #ComboPiece" =
      [{ name := "Aetherflux Reservoir", quantity := 1, foilStatus := "F",
         tags := "#ComboPiece" }] := by
  decide

theorem getLast_exists_of_ne_nil {l : List Char} (h : l ≠ []) :
    ∃ c, l.getLast? = some c := by
  cases hq : l.getLast? with
  | none => exact absurd (List.getLast?_eq_none_iff.mp hq) h
  | some c => exact ⟨c, rfl⟩

theorem parseCardInput_token {l : List Char} (hne : l ≠ [])
    (hws : ∀ c ∈ l, c.isWhitespace = false)
    (hhash : '#' ∉ l) (hstar : '*' ∉ l) (hq : matchQuantity l = none) :
    parseCardInput (String.mk l) = [⟨String.mk l, 1, "", ""⟩] := by
  have hnl : '\n' ∉ l := by
    intro hc
    have := hws '\n' hc
    exact absurd this (by decide)
  have htrim : trimL l = l :=
    trimL_eq_self
      (fun c hc => hws c (by
        cases l with
        | nil => simp at hc
        | cons a as => injection hc with hc; exact hc ▸ List.mem_cons_self a as))
      (fun c hc => hws c (List.mem_of_getLast?_eq_some hc))
  have hsplitn : splitOnChar '\n' (String.mk l).toList = [l] := splitOnChar_not_mem hnl
  have hfoil : matchFoil l = none := by
    rcases getLast_exists_of_ne_nil hne with ⟨c, hc⟩
    exact matchFoil_none_of_getLast hc
      (hws c (List.mem_of_getLast?_eq_some hc))
      (fun hcc => hstar (hcc ▸ List.mem_of_getLast?_eq_some hc))
  have hstrip : stripSetSuffix l = l := stripSetSuffix_eq_self hws
  have hslash : replaceSlashes l = l := replaceSlashes_no_ws hws
  have hparse : parseLine l = some ⟨String.mk l, 1, "", ""⟩ := by
    rw [parseLine]
    rw [splitOnChar_not_mem hhash]
    simp only [List.headD_cons, List.tail_cons, List.map_nil,
      htrim, hq, hfoil, hstrip, hslash]
    rw [if_neg (by simpa using hne)]
    rfl
  rw [parseCardInput, hsplitn]
  rw [List.map_cons, List.map_nil, htrim]
  rw [List.filter_cons_of_pos (by
    simp only [gt_iff_lt, decide_eq_true_eq]
    exact List.length_pos.mpr hne)]
  rw [List.filter_nil]
  rw [List.filterMap_cons_some (f := parseLine) hparse, List.filterMap_nil]

/-- C8 counterexample: a line consisting only of a quantity is not discarded —
`parseCardInput "4"` emits a request with name `4`, contradicting the claim
that such lines produce no request. -/
theorem claim_C8_cex :
    parseCardInput "4" = [{ name := "4", quantity := 1, foilStatus := "", tags := "" }] ∧
    parseCardInput "4" ≠ [] := by
  refine ⟨by decide, by decide⟩

/-- C8 (amended): a line consisting only of a quantity token — digits
optionally followed by `x` — is not discarded: because the quantity pattern
requires following whitespace, no quantity prefix is recognised and the whole
token is kept as the card name, so the parser emits exactly one request with
the line's text as its name and quantity 1. -/
theorem claim_C8 (ds : List Char) (hne : ds ≠ [])
    (hdig : ∀ c ∈ ds, c.isDigit = true) :
    parseCardInput (String.mk ds) =
      [⟨String.mk ds, 1, "", ""⟩] ∧
    parseCardInput (String.mk (ds ++ ['x'])) =
      [⟨String.mk (ds ++ ['x']), 1, "", ""⟩] := by
  have hfacts := fun c hc => isDigit_char_facts (hdig c hc)
  constructor
  · apply parseCardInput_token hne
    · exact fun c hc => (hfacts c hc).1
    · intro hc
      exact (hfacts '#' hc).2.1 rfl
    · intro hc
      exact (hfacts '*' hc).2.2.1 rfl
    · exact matchQuantity_all_digits hne hdig
  · have hxne : ds ++ ['x'] ≠ [] := by simp
    apply parseCardInput_token hxne
    · intro c hc
      rcases List.mem_append.mp hc with hc' | hc'
      · exact (hfacts c hc').1
      · rcases List.mem_singleton.mp hc' with rfl
        decide
    · intro hc
      rcases List.mem_append.mp hc with hc' | hc'
      · exact (hfacts '#' hc').2.1 rfl
      · rcases List.mem_singleton.mp hc' with hc''
        exact absurd hc'' (by decide)
    · intro hc
      rcases List.mem_append.mp hc with hc' | hc'
      · exact (hfacts '*' hc').2.2.1 rfl
      · rcases List.mem_singleton.mp hc' with hc''
        exact absurd hc'' (by decide)
    · rw [matchQuantity_digits_x hne hdig (by decide)]
      rw [if_pos (Or.inl rfl)]

/-- C8 witness: the amended behaviour at the concrete quantity-only lines `4`
and `4x`. -/
theorem claim_C8_witness :
    parseCardInput (String.mk ['4']) = [⟨String.mk ['4'], 1, "", ""⟩] ∧
    parseCardInput (String.mk (['4'] ++ ['x'])) =
      [⟨String.mk (['4'] ++ ['x']), 1, "", ""⟩] :=
  claim_C8 ['4'] (by decide) (by decide)

/-- C9 counterexample: the parser emits a request with quantity 0 for the
line `0 Island`, contradicting the claim that every emitted request has
quantity at least 1. -/
theorem claim_C9_cex :
    parseCardInput "0 Island" =
      [{ name := "Island", quantity := 0, foilStatus := "", tags := "" }] ∧
    (parseCardInput "0 Island").map ParsedInputCard.quantity = [0] := by
  refine ⟨by decide, by decide⟩

/-- C9 (amended): every emitted request's quantity equals the base-10 value of
the explicit digit prefix when the line carries one (which is 0 when the
digits are all zeros), and equals 1 when no quantity prefix is recognised;
quantity at least 1 is therefore not guaranteed for explicit zero prefixes. -/
theorem claim_C9 (line : List Char) (c : ParsedInputCard)
    (h : parseLine line = some c) :
    (matchQuantity (trimL ((splitOnChar '#' line).headD [])) = none →
      c.quantity = 1) ∧
    (∀ (q : Nat) (r : List Char),
      matchQuantity (trimL ((splitOnChar '#' line).headD [])) = some (q, r) →
      c.quantity = q) := by
  constructor
  · intro hq
    rw [parseLine] at h
    simp only [hq] at h
    split at h
    · exact absurd h (by simp)
    · injection h with h
      rw [← h]
  · intro q r hq
    rw [parseLine] at h
    simp only [hq] at h
    split at h
    · exact absurd h (by simp)
    · injection h with h
      rw [← h]

/-- C9 witness: the quantity law at the concrete line `2x Island`. -/
theorem claim_C9_witness :
    parseLine ("2x Island").toList = some ⟨"Island", 2, "", ""⟩ ∧
    matchQuantity (trimL ((splitOnChar '#' ("2x Island").toList).headD [])) =
      some (2, "Island".toList) ∧
    (⟨"Island", 2, "", ""⟩ : ParsedInputCard).quantity = 2 := by
  refine ⟨by decide, by decide, ?_⟩
  exact (claim_C9 ("2x Island").toList ⟨"Island", 2, "", ""⟩ (by decide)).2 2
    ("Island".toList) (by decide)

/-! ### Support for the round-trip theorem -/

theorem dropWhile_eq_self_head {p : Char → Bool} {l : List Char}
    (h : l.dropWhile p = l) : ∀ c, l.head? = some c → p c = false := by
  intro c hc
  cases l with
  | nil => simp at hc
  | cons a t =>
    injection hc with hc
    rw [← hc]
    cases hp : p a
    · rfl
    · exfalso
      rw [List.dropWhile_cons, if_pos hp] at h
      have h1 := (List.dropWhile_suffix (l := t) p).length_le
      have h2 := congrArg List.length h
      simp only [List.length_cons] at h2
      omega

theorem dropWhile_eq_self_of_trimL {l : List Char} (h : trimL l = l) :
    l.dropWhile Char.isWhitespace = l := by
  apply (List.dropWhile_suffix (l := l) Char.isWhitespace).eq_of_length_le
  have h2 : (trimL l).length ≤ (l.dropWhile Char.isWhitespace).length := by
    unfold trimL dropTrailingWs
    rw [List.length_reverse]
    have hle := (List.dropWhile_suffix
      (l := (l.dropWhile Char.isWhitespace).reverse) Char.isWhitespace).length_le
    rw [List.length_reverse] at hle
    exact hle
  rw [h] at h2
  exact h2

theorem head_not_ws_of_trimL {l : List Char} (h : trimL l = l) :
    ∀ c, l.head? = some c → c.isWhitespace = false :=
  dropWhile_eq_self_head (dropWhile_eq_self_of_trimL h)

theorem getLast_not_ws_of_trimL {l : List Char} (h : trimL l = l) :
    ∀ c, l.getLast? = some c → c.isWhitespace = false := by
  have hd := dropWhile_eq_self_of_trimL h
  have h2 : dropTrailingWs l = l := by
    conv_rhs => rw [← h]
    rw [trimL, hd]
  have h3 : l.reverse.dropWhile Char.isWhitespace = l.reverse := by
    have := congrArg List.reverse h2
    rwa [dropTrailingWs, List.reverse_reverse] at this
  intro c hc
  rw [← List.head?_reverse] at hc
  exact dropWhile_eq_self_head h3 c hc

theorem getLast?_append_right {A B : List Char} (h : B ≠ []) :
    (A ++ B).getLast? = B.getLast? := by
  rw [List.getLast?_append]
  cases hb : B.getLast? with
  | none => exact absurd (List.getLast?_eq_none_iff.mp hb) h
  | some c => rfl

theorem head?_append_left {A B : List Char} {c : Char} (h : A.head? = some c) :
    (A ++ B).head? = some c := by
  cases A with
  | nil => simp at h
  | cons a t =>
    injection h with h
    simp [h]

theorem natRepr_head (n : Nat) :
    ∃ c, (natRepr n).head? = some c ∧ c.isDigit = true := by
  cases hr : natRepr n with
  | nil => exact absurd hr (natRepr_ne_nil n)
  | cons a t =>
    exact ⟨a, rfl, natRepr_digits a (hr ▸ List.mem_cons_self a t)⟩

theorem jsOr_absorb (a b : String) : jsOr (jsOr a b) b = jsOr a b := by
  unfold jsOr
  by_cases ha : a = ""
  · rw [if_pos ha]
    split <;> rfl
  · rw [if_neg ha, if_neg ha]

theorem mem_core_cases {x : Char} {qL nameL setUL collL finL : List Char}
    (hx : x ∈ qL ++ ' ' :: (nameL ++ ' ' :: '(' :: (setUL ++ ')' :: ' ' ::
      (collL ++ finL)))) :
    x ∈ qL ∨ x = ' ' ∨ x ∈ nameL ∨ x = '(' ∨ x ∈ setUL ∨ x = ')' ∨ x ∈ collL ∨
      x ∈ finL := by
  simp only [List.mem_append, List.mem_cons] at hx
  tauto

theorem moxfieldLine_toList (q : Nat) (nm setU coll fin tags : String) :
    (moxfieldLine q nm setU coll fin tags).toList =
      natRepr q ++ ' ' :: (nm.toList ++ ' ' :: '(' :: (setU.toList ++ ')' :: ' ' ::
        (coll.toList ++
          (if fin = "" then [] else ' ' :: '*' :: (fin.toList ++ ['*'])) ++
          (if tags = "" then [] else ' ' :: tags.toList)))) := by
  have h1 : (" " : String).data = [' '] := rfl
  have h2 : (" (" : String).data = [' ', '('] := rfl
  have h3 : (") " : String).data = [')', ' '] := rfl
  have h4 : (" *" : String).data = [' ', '*'] := rfl
  have h5 : ("*" : String).data = ['*'] := rfl
  by_cases hf : fin = "" <;> by_cases ht : tags = "" <;>
    simp [moxfieldLine, natStr, hf, ht, String.toList, String.data_append,
      h1, h2, h3, h4, h5, List.append_assoc]

theorem getLast?_cons_of_ne {a : Char} {l : List Char} (h : l ≠ []) :
    (a :: l).getLast? = l.getLast? := by
  rw [show a :: l = [a] ++ l from rfl, getLast?_append_right h]

theorem strip_body (nameL setUL collL : List Char)
    (hn_trim : trimL nameL = nameL) (hn_par : '(' ∉ nameL)
    (hs_ne : setUL ≠ []) (hs_rpar : ')' ∉ setUL)
    (hc_ne : collL ≠ []) (hc_ws : ∀ c ∈ collL, c.isWhitespace = false) :
    stripSetSuffix (nameL ++ ' ' :: '(' :: (setUL ++ ')' :: ' ' :: collL)) = nameL :=
  stripSetSuffix_walk hn_par (getLast_not_ws_of_trimL hn_trim)
    (matchSetSuffixAt_boundary hs_ne (fun _ hc hcc => hs_rpar (hcc ▸ hc)) hc_ne hc_ws)

theorem parseLine_main (q : Nat) (nameL setUL collL tagsL finL : List Char)
    (foilStr : String)
    (hn_ne : nameL ≠ []) (hn_trim : trimL nameL = nameL)
    (hn_hash : '#' ∉ nameL) (hn_par : '(' ∉ nameL)
    (hn_slash : replaceSlashes nameL = nameL)
    (hs_ne : setUL ≠ []) (hs_rpar : ')' ∉ setUL) (hs_hash : '#' ∉ setUL)
    (hc_ne : collL ≠ [])
    (hc_ok : ∀ c ∈ collL, c.isWhitespace = false ∧ c ≠ '#' ∧ c ≠ '*')
    (ht_head : tagsL = [] ∨ tagsL.head? = some '#')
    (ht_norm : normTagsL tagsL = tagsL)
    (hfin : (finL = [] ∧ foilStr = "") ∨
      (∃ f, (f = 'F' ∨ f = 'E') ∧ finL = [' ', '*', f, '*'] ∧
        foilStr = String.mk [f])) :
    parseLine (natRepr q ++ ' ' :: (nameL ++ ' ' :: '(' :: (setUL ++ ')' :: ' ' ::
        (collL ++ finL ++ (if tagsL = [] then [] else ' ' :: tagsL))))) =
      some ⟨String.mk nameL, q, foilStr, String.mk tagsL⟩ := by
  have hname_head := head_not_ws_of_trimL hn_trim
  rcases getLast_exists_of_ne_nil hc_ne with ⟨cl, hcl⟩
  have hcl_mem := List.mem_of_getLast?_eq_some hcl
  have hcl_ws : cl.isWhitespace = false := (hc_ok cl hcl_mem).1
  have hcl_star : cl ≠ '*' := (hc_ok cl hcl_mem).2.2
  have hfin_hash : '#' ∉ finL := by
    rcases hfin with ⟨rfl, _⟩ | ⟨f, hf, rfl, _⟩
    · simp
    · rcases hf with rfl | rfl <;> simp
  have hq_hash : '#' ∉ natRepr q := fun hc =>
    (isDigit_char_facts (natRepr_digits '#' hc)).2.1 rfl
  have hcore_hash : '#' ∉ natRepr q ++ ' ' :: (nameL ++ ' ' :: '(' ::
      (setUL ++ ')' :: ' ' :: (collL ++ finL))) := by
    intro hc
    rcases mem_core_cases hc with h | h | h | h | h | h | h | h
    · exact hq_hash h
    · exact absurd h (by decide)
    · exact hn_hash h
    · exact absurd h (by decide)
    · exact hs_hash h
    · exact absurd h (by decide)
    · exact (hc_ok _ h).2.1 rfl
    · exact hfin_hash h
  have hFB_ne : collL ++ finL ≠ [] := by
    intro hc
    exact hc_ne (List.append_eq_nil.mp hc).1
  have hFB_last : ∃ c, (collL ++ finL).getLast? = some c ∧ c.isWhitespace = false := by
    rcases hfin with ⟨rfl, _⟩ | ⟨f, _, rfl, _⟩
    · rw [List.append_nil]
      exact ⟨cl, hcl, hcl_ws⟩
    · rw [getLast?_append_right (by simp)]
      exact ⟨'*', rfl, rfl⟩
  rcases hFB_last with ⟨fb, hfb, hfb_ws⟩
  have hREST1_ne : nameL ++ ' ' :: '(' :: (setUL ++ ')' :: ' ' ::
      (collL ++ finL)) ≠ [] := by
    cases nameL <;> simp
  have hREST1_last : (nameL ++ ' ' :: '(' :: (setUL ++ ')' :: ' ' ::
      (collL ++ finL))).getLast? = some fb := by
    rw [getLast?_append_right (by simp), getLast?_cons_of_ne (by simp),
      getLast?_cons_of_ne (by
        cases setUL with
        | nil => simp
        | cons a t => simp),
      getLast?_append_right (by simp), getLast?_cons_of_ne (by simp),
      getLast?_cons_of_ne hFB_ne, hfb]
  have hREST1_head : ∀ c, (nameL ++ ' ' :: '(' :: (setUL ++ ')' :: ' ' ::
      (collL ++ finL))).head? = some c → c.isWhitespace = false := by
    intro c hc
    cases nameL with
    | nil => exact absurd rfl hn_ne
    | cons a t =>
      rw [List.cons_append, List.head?_cons] at hc
      injection hc with h
      rw [← h]
      exact hname_head a rfl
  have hREST1_trim : trimL (nameL ++ ' ' :: '(' :: (setUL ++ ')' :: ' ' ::
      (collL ++ finL))) = nameL ++ ' ' :: '(' :: (setUL ++ ')' :: ' ' ::
      (collL ++ finL)) := by
    apply trimL_eq_self hREST1_head
    intro c hc
    rw [hREST1_last] at hc
    injection hc with h
    rw [← h]
    exact hfb_ws
  have hCORE_head : ∀ c, (natRepr q ++ ' ' :: (nameL ++ ' ' :: '(' ::
      (setUL ++ ')' :: ' ' :: (collL ++ finL)))).head? = some c →
      c.isWhitespace = false := by
    intro c hc
    rcases natRepr_head q with ⟨c', hc', hcd⟩
    have hcc := head?_append_left
      (B := ' ' :: (nameL ++ ' ' :: '(' :: (setUL ++ ')' :: ' ' :: (collL ++ finL))))
      hc'
    rw [hc] at hcc
    injection hcc with h
    rw [h]
    exact (isDigit_char_facts hcd).1
  have hCORE_last : (natRepr q ++ ' ' :: (nameL ++ ' ' :: '(' ::
      (setUL ++ ')' :: ' ' :: (collL ++ finL)))).getLast? = some fb := by
    rw [getLast?_append_right (by simp), getLast?_cons_of_ne hREST1_ne, hREST1_last]
  have hCORE_trim : trimL (natRepr q ++ ' ' :: (nameL ++ ' ' :: '(' ::
      (setUL ++ ')' :: ' ' :: (collL ++ finL)))) =
      natRepr q ++ ' ' :: (nameL ++ ' ' :: '(' ::
      (setUL ++ ')' :: ' ' :: (collL ++ finL))) := by
    apply trimL_eq_self hCORE_head
    intro c hc
    rw [hCORE_last] at hc
    injection hc with h
    rw [← h]
    exact hfb_ws
  have hqm : matchQuantity (natRepr q ++ ' ' :: (nameL ++ ' ' :: '(' ::
      (setUL ++ ')' :: ' ' :: (collL ++ finL)))) =
      some (digitsToNat (natRepr q), nameL ++ ' ' :: '(' ::
        (setUL ++ ')' :: ' ' :: (collL ++ finL))) :=
    matchQuantity_digits_space (natRepr_ne_nil q)
      (fun c hc => natRepr_digits c hc) hREST1_head
  have hstripped : stripSetSuffix (nameL ++ ' ' :: '(' ::
      (setUL ++ ')' :: ' ' :: collL)) = nameL :=
    strip_body nameL setUL collL hn_trim hn_par hs_ne hs_rpar hc_ne
      (fun c hc => (hc_ok c hc).1)
  have hcore2_hash : '#' ∉ (natRepr q ++ ' ' :: (nameL ++ ' ' :: '(' ::
      (setUL ++ ')' :: ' ' :: (collL ++ finL)))) ++ [' '] := by
    intro hc
    rcases List.mem_append.mp hc with h | h
    · exact hcore_hash h
    · simp at h
  have htrim0 : trimL ((natRepr q ++ ' ' :: (nameL ++ ' ' :: '(' ::
      (setUL ++ ')' :: ' ' :: (collL ++ finL)))) ++ [' ']) =
      natRepr q ++ ' ' :: (nameL ++ ' ' :: '(' ::
        (setUL ++ ')' :: ' ' :: (collL ++ finL))) := by
    have hws : (' ' : Char).isWhitespace = true := by decide
    rw [trimL_append_ws hws hCORE_head]
    apply dropTrailingWs_eq_self
    intro c hc
    rw [hCORE_last] at hc
    injection hc with h
    rw [← h]
    exact hfb_ws
  rcases hfin with ⟨hfinnil, hfoilstr⟩ | ⟨f, hf, hfinval, hfoilstr⟩
  · subst hfinnil
    subst hfoilstr
    have hfbcl : fb = cl := by
      rw [List.append_nil] at hfb
      rw [hfb] at hcl
      exact Option.some_inj.mp hcl
    have hfm : matchFoil (nameL ++ ' ' :: '(' :: (setUL ++ ')' :: ' ' ::
        (collL ++ []))) = none := by
      apply matchFoil_none_of_getLast hREST1_last hfb_ws
      rw [hfbcl]
      exact hcl_star
    have hstrip2 : stripSetSuffix (nameL ++ ' ' :: '(' :: (setUL ++ ')' :: ' ' ::
        (collL ++ []))) = nameL := by
      rw [List.append_nil]
      exact hstripped
    by_cases htags : tagsL = []
    · subst htags
      rw [if_pos rfl, show (collL ++ ([] : List Char) ++ [] : List Char) =
        collL ++ [] from List.append_nil _]
      rw [parseLine]
      rw [splitOnChar_not_mem hcore_hash]
      simp only [List.headD_cons, List.tail_cons, List.map_nil, hCORE_trim, hqm,
        digitsToNat_natRepr, hREST1_trim, hfm, hstrip2, hn_trim, hn_slash]
      rw [if_neg (by simpa using hn_ne)]
      rfl
    · rcases ht_head with h | hhd
      · exact absurd h htags
      obtain ⟨trest, rfl⟩ : ∃ trest, tagsL = '#' :: trest := by
        cases tagsL with
        | nil => exact absurd rfl htags
        | cons a t =>
          injection hhd with h
          exact ⟨t, by rw [h]⟩
      rw [if_neg htags]
      have htagseq : List.intercalate [' ']
          ((splitOnChar '#' trest).map (fun t => '#' :: trimL t)) = '#' :: trest := by
        conv_rhs => rw [← ht_norm]
        rw [normTagsL, splitOnChar_cons_sep, List.tail_cons]
      have hassoc : natRepr q ++ ' ' :: (nameL ++ ' ' :: '(' :: (setUL ++ ')' :: ' ' ::
          (collL ++ [] ++ ' ' :: '#' :: trest))) =
          ((natRepr q ++ ' ' :: (nameL ++ ' ' :: '(' :: (setUL ++ ')' :: ' ' ::
            (collL ++ [])))) ++ [' ']) ++ '#' :: trest := by
        simp [List.append_assoc]
      rw [hassoc, parseLine, splitOnChar_append_sep hcore2_hash]
      simp only [List.headD_cons, List.tail_cons, htrim0, hqm,
        digitsToNat_natRepr, hREST1_trim, hfm, hstrip2, hn_trim, hn_slash, htagseq]
      rw [if_neg (by simpa using hn_ne)]
  · subst hfinval
    subst hfoilstr
    have hBODY2_last : (nameL ++ ' ' :: '(' :: (setUL ++ ')' :: ' ' ::
        collL)).getLast? = some cl := by
      rw [getLast?_append_right (by simp), getLast?_cons_of_ne (by simp),
        getLast?_cons_of_ne (by
          cases setUL with
          | nil => simp
          | cons a t => simp),
        getLast?_append_right (by simp), getLast?_cons_of_ne (by simp),
        getLast?_cons_of_ne hc_ne, hcl]
    have hfm : matchFoil (nameL ++ ' ' :: '(' :: (setUL ++ ')' :: ' ' ::
        (collL ++ [' ', '*', f, '*']))) =
        some (String.mk [f], nameL ++ ' ' :: '(' :: (setUL ++ ')' :: ' ' ::
          collL)) := by
      have hshape : nameL ++ ' ' :: '(' :: (setUL ++ ')' :: ' ' ::
          (collL ++ [' ', '*', f, '*'])) =
          (nameL ++ ' ' :: '(' :: (setUL ++ ')' :: ' ' :: collL)) ++
            [' ', '*', f, '*'] := by
        simp [List.append_assoc]
      rw [hshape]
      apply matchFoil_append_marker hf
      intro c hc
      rw [hBODY2_last] at hc
      injection hc with h
      rw [← h]
      exact hcl_ws
    have htrim2 : trimL (nameL ++ ' ' :: '(' :: (setUL ++ ')' :: ' ' :: collL)) =
        nameL ++ ' ' :: '(' :: (setUL ++ ')' :: ' ' :: collL) := by
      apply trimL_eq_self
      · intro c hc
        cases nameL with
        | nil => exact absurd rfl hn_ne
        | cons a t =>
          rw [List.cons_append, List.head?_cons] at hc
          injection hc with h
          rw [← h]
          exact hname_head a rfl
      · intro c hc
        rw [hBODY2_last] at hc
        injection hc with h
        rw [← h]
        exact hcl_ws
    by_cases htags : tagsL = []
    · subst htags
      rw [if_pos rfl, List.append_nil]
      rw [parseLine]
      rw [splitOnChar_not_mem hcore_hash]
      simp only [List.headD_cons, List.tail_cons, List.map_nil, hCORE_trim, hqm,
        digitsToNat_natRepr, hREST1_trim, hfm, htrim2, hstripped, hn_trim, hn_slash]
      rw [if_neg (by simpa using hn_ne)]
      rfl
    · rcases ht_head with h | hhd
      · exact absurd h htags
      obtain ⟨trest, rfl⟩ : ∃ trest, tagsL = '#' :: trest := by
        cases tagsL with
        | nil => exact absurd rfl htags
        | cons a t =>
          injection hhd with h
          exact ⟨t, by rw [h]⟩
      rw [if_neg htags]
      have htagseq : List.intercalate [' ']
          ((splitOnChar '#' trest).map (fun t => '#' :: trimL t)) = '#' :: trest := by
        conv_rhs => rw [← ht_norm]
        rw [normTagsL, splitOnChar_cons_sep, List.tail_cons]
      have hassoc : natRepr q ++ ' ' :: (nameL ++ ' ' :: '(' :: (setUL ++ ')' :: ' ' ::
          (collL ++ [' ', '*', f, '*'] ++ ' ' :: '#' :: trest))) =
          ((natRepr q ++ ' ' :: (nameL ++ ' ' :: '(' :: (setUL ++ ')' :: ' ' ::
            (collL ++ [' ', '*', f, '*'])))) ++ [' ']) ++ '#' :: trest := by
        simp [List.append_assoc]
      rw [hassoc, parseLine, splitOnChar_append_sep hcore2_hash]
      simp only [List.headD_cons, List.tail_cons, htrim0, hqm,
        digitsToNat_natRepr, hREST1_trim, hfm, htrim2, hstripped, hn_trim, hn_slash,
        htagseq]
      rw [if_neg (by simpa using hn_ne)]

theorem mem_line_cases {x : Char} {qL nameL setUL collL finL tagL : List Char}
    (hx : x ∈ qL ++ ' ' :: (nameL ++ ' ' :: '(' :: (setUL ++ ')' :: ' ' ::
      (collL ++ finL ++ tagL)))) :
    x ∈ qL ∨ x = ' ' ∨ x ∈ nameL ∨ x = '(' ∨ x ∈ setUL ∨ x = ')' ∨ x ∈ collL ∨
      x ∈ finL ∨ x ∈ tagL := by
  simp only [List.mem_append, List.mem_cons] at hx
  tauto

theorem string_mk_toList (s : String) : String.mk s.toList = s :=
  string_ext_toList rfl

theorem string_eq_empty_of_toList {s : String} (h : s.toList = []) : s = "" :=
  string_ext_toList h

theorem parseCardInput_single {L : List Char} {pc : ParsedInputCard}
    (hnl : '\n' ∉ L) (htrim : trimL L = L) (hne : L ≠ [])
    (hp : parseLine L = some pc) :
    parseCardInput (String.mk L) = [pc] := by
  rw [parseCardInput]
  have h0 : (String.mk L).toList = L := rfl
  rw [h0, splitOnChar_not_mem hnl]
  simp only [List.map_cons, List.map_nil, htrim]
  have hl : decide (L.length > 0) = true := by
    apply decide_eq_true
    cases L with
    | nil => exact absurd rfl hne
    | cons a t => simp
  simp only [List.filter_cons, hl, if_true, List.filter_nil,
    List.filterMap_cons, hp, List.filterMap_nil]

theorem line_trim_eq_self {q : Nat} {nameL setUL collL finL tagL : List Char}
    (hc_ne : collL ≠ []) (hc_ws : ∀ c ∈ collL, c.isWhitespace = false)
    (hfin : finL = [] ∨ finL.getLast? = some '*')
    (htag : tagL = [] ∨ ∃ d, tagL.getLast? = some d ∧ d.isWhitespace = false) :
    trimL (natRepr q ++ ' ' :: (nameL ++ ' ' :: '(' :: (setUL ++ ')' :: ' ' ::
      (collL ++ finL ++ tagL)))) =
      natRepr q ++ ' ' :: (nameL ++ ' ' :: '(' :: (setUL ++ ')' :: ' ' ::
        (collL ++ finL ++ tagL))) := by
  have hrest_ne : collL ++ finL ++ tagL ≠ [] := by
    intro h
    rcases List.append_eq_nil.mp h with ⟨h1, -⟩
    exact hc_ne (List.append_eq_nil.mp h1).1
  have hlast : ∀ c, (collL ++ finL ++ tagL).getLast? = some c →
      c.isWhitespace = false := by
    intro c hc
    rcases htag with rfl | ⟨d, hd, hdw⟩
    · rw [List.append_nil] at hc
      rcases hfin with rfl | hstar
      · rw [List.append_nil] at hc
        exact hc_ws c (List.mem_of_getLast?_eq_some hc)
      · have hfne : finL ≠ [] := by
          intro h
          rw [h] at hstar
          simp at hstar
        rw [getLast?_append_right hfne, hstar] at hc
        injection hc with h
        rw [← h]
        decide
    · have htagne : tagL ≠ [] := by
        intro h
        rw [h] at hd
        simp at hd
      rw [getLast?_append_right htagne, hd] at hc
      injection hc with h
      rw [← h]
      exact hdw
  apply trimL_eq_self
  · intro c hc
    obtain ⟨d, hd, hdig⟩ := natRepr_head q
    rw [head?_append_left hd] at hc
    injection hc with h
    rw [← h]
    exact (isDigit_char_facts hdig).1
  · intro c hc
    rw [getLast?_append_right (by simp), getLast?_cons_of_ne (by simp),
      getLast?_append_right (by simp), getLast?_cons_of_ne (by simp),
      getLast?_cons_of_ne (by
        cases setUL with
        | nil => simp
        | cons a t => simp),
      getLast?_append_right (by simp), getLast?_cons_of_ne (by simp),
      getLast?_cons_of_ne hrest_ne] at hc
    exact hlast c hc

/-- C4 (as corrected): round-trip idempotence holds only under well-formedness
side conditions that the spec's unconditional statement omits.  If a lookup of
`req` against catalog `rows` under policy `pol` found the printing `brc`, the
fresh exact-name lookup of the canonical name re-selects the same printing, the
canonical name is non-empty, trimmed, free of `#`, `(` and newlines, and is a
fixed point of the slash-spacing rewrite, the uppercased set code is non-empty
and free of `)`, `#` and newlines, the collector number is non-empty with no
whitespace, `#` or `*`, the tags are empty or `#`-led, normalised, end in
non-whitespace and contain no newline, and the effective finish is one of ``,
`F`, `E`, then parsing the rendered line recovers exactly the canonicalised
request `roundReq req brc`, the fresh lookup finds `brc` again, and re-rendering
reproduces the original line.  Without these conditions the round trip fails
(see the counterexample). -/
theorem claim_C4 (req : ParsedInputCard) (rows : List Card) (pol : String)
    (brc : BatchResultCard)
    (hlook : lookupCard req (.ok rows) pol = ⟨true, req, some brc⟩)
    (hresel : selectFirst pol (exactMatches rows (trimL brc.name.toList)) =
      some brc.toCard)
    (hn_ne : brc.name.toList ≠ [])
    (hn_trim : trimL brc.name.toList = brc.name.toList)
    (hn_hash : '#' ∉ brc.name.toList) (hn_par : '(' ∉ brc.name.toList)
    (hn_nl : '\n' ∉ brc.name.toList)
    (hn_slash : replaceSlashes brc.name.toList = brc.name.toList)
    (hs_ne : (strUpper brc.set_code).toList ≠ [])
    (hs_rpar : ')' ∉ (strUpper brc.set_code).toList)
    (hs_hash : '#' ∉ (strUpper brc.set_code).toList)
    (hs_nl : '\n' ∉ (strUpper brc.set_code).toList)
    (hc_ne : brc.collector_number.toList ≠ [])
    (hc_ok : ∀ c ∈ brc.collector_number.toList,
      c.isWhitespace = false ∧ c ≠ '#' ∧ c ≠ '*')
    (ht_head : req.tags.toList = [] ∨ req.tags.toList.head? = some '#')
    (ht_norm : normTagsL req.tags.toList = req.tags.toList)
    (ht_last : (req.tags.toList.getLast?.all fun c => !c.isWhitespace) = true)
    (ht_nl : '\n' ∉ req.tags.toList)
    (hfoil : jsOr req.foilStatus brc.foilStatus = "" ∨
      jsOr req.foilStatus brc.foilStatus = "F" ∨
      jsOr req.foilStatus brc.foilStatus = "E") :
    parseCardInput (formatForMoxfield ⟨true, some brc⟩ req) = [roundReq req brc] ∧
    lookupCard (roundReq req brc) (.ok rows) pol =
      ⟨true, roundReq req brc, some brc⟩ ∧
    formatForMoxfield ⟨true, some brc⟩ (roundReq req brc) =
      formatForMoxfield ⟨true, some brc⟩ req := by
  have ht_last' : ∀ c, req.tags.toList.getLast? = some c →
      c.isWhitespace = false := by
    intro c hc
    rw [hc] at ht_last
    have h1 : (!c.isWhitespace) = true := ht_last
    simpa using h1
  obtain ⟨c0, hbrc, -⟩ := lookupCard_inversion
    (show (lookupCard req (.ok rows) pol).result = some brc by rw [hlook])
  have hpair : (⟨brc.toCard, derivedFoil brc.toCard.finishes⟩ : BatchResultCard) =
      brc := by
    rw [hbrc]
  have hne2 : ¬ (trimL (roundReq req brc).name.toList).isEmpty = true := by
    show ¬ (trimL brc.name.toList).isEmpty = true
    rw [hn_trim]
    simpa [List.isEmpty_iff] using hn_ne
  have hresel' : selectFirst pol (exactMatches rows
      (trimL (roundReq req brc).name.toList)) = some brc.toCard := hresel
  have hlook2 : lookupCard (roundReq req brc) (.ok rows) pol =
      ⟨true, roundReq req brc, some brc⟩ := by
    have h2 := lookupCard_exact hne2 hresel'
    rw [hpair] at h2
    exact h2
  have h3 : formatForMoxfield ⟨true, some brc⟩ (roundReq req brc) =
      formatForMoxfield ⟨true, some brc⟩ req := by
    rw [formatForMoxfield_found, formatForMoxfield_found]
    have habs : (if (roundReq req brc).foilStatus = "" then brc.foilStatus
        else (roundReq req brc).foilStatus) =
        (if req.foilStatus = "" then brc.foilStatus else req.foilStatus) :=
      jsOr_absorb req.foilStatus brc.foilStatus
    rw [habs]
    rfl
  have hmkn : String.mk brc.name.toList = brc.name := string_mk_toList brc.name
  have hmkt : String.mk req.tags.toList = req.tags := string_mk_toList req.tags
  have htagif : (if req.tags = "" then ([] : List Char)
      else ' ' :: req.tags.toList) =
      (if req.tags.toList = [] then [] else ' ' :: req.tags.toList) := by
    by_cases h : req.tags = ""
    · rw [if_pos h, if_pos (show req.tags.toList = [] by rw [h]; rfl)]
    · rw [if_neg h, if_neg (show ¬ req.tags.toList = [] from
        fun hc => h (string_eq_empty_of_toList hc))]
  have hfmt : formatForMoxfield ⟨true, some brc⟩ req =
      moxfieldLine req.quantity brc.name (strUpper brc.set_code)
        brc.collector_number (jsOr req.foilStatus brc.foilStatus) req.tags :=
    formatForMoxfield_found brc req
  have hparse_gen : ∀ (finL : List Char) (foilStr : String),
      ((finL = [] ∧ foilStr = "") ∨
        (∃ f, (f = 'F' ∨ f = 'E') ∧ finL = [' ', '*', f, '*'] ∧
          foilStr = String.mk [f])) →
      (formatForMoxfield ⟨true, some brc⟩ req).toList =
        natRepr req.quantity ++ ' ' :: (brc.name.toList ++ ' ' :: '(' ::
          ((strUpper brc.set_code).toList ++ ')' :: ' ' ::
            (brc.collector_number.toList ++ finL ++
              (if req.tags.toList = [] then [] else ' ' :: req.tags.toList)))) →
      foilStr = jsOr req.foilStatus brc.foilStatus →
      parseCardInput (formatForMoxfield ⟨true, some brc⟩ req) =
        [roundReq req brc] := by
    intro finL foilStr hfin hline hfs
    have hfin_nl : '\n' ∉ finL := by
      rcases hfin with ⟨rfl, -⟩ | ⟨f, hf, rfl, -⟩
      · simp
      · rcases hf with rfl | rfl <;> decide
    have hfin_last : finL = [] ∨ finL.getLast? = some '*' := by
      rcases hfin with ⟨rfl, -⟩ | ⟨f, hf, rfl, -⟩
      · exact Or.inl rfl
      · exact Or.inr rfl
    have hpl := parseLine_main req.quantity brc.name.toList
      (strUpper brc.set_code).toList brc.collector_number.toList
      req.tags.toList finL foilStr
      hn_ne hn_trim hn_hash hn_par hn_slash hs_ne hs_rpar hs_hash hc_ne hc_ok
      ht_head ht_norm hfin
    have hres' : (⟨String.mk brc.name.toList, req.quantity, foilStr,
        String.mk req.tags.toList⟩ : ParsedInputCard) = roundReq req brc := by
      rw [hmkn, hmkt, hfs]
      rfl
    rw [hres'] at hpl
    have hnl_line : '\n' ∉ natRepr req.quantity ++ ' ' :: (brc.name.toList ++
        ' ' :: '(' :: ((strUpper brc.set_code).toList ++ ')' :: ' ' ::
          (brc.collector_number.toList ++ finL ++
            (if req.tags.toList = [] then [] else ' ' :: req.tags.toList)))) := by
      intro hx
      rcases mem_line_cases hx with h | h | h | h | h | h | h | h | h
      · exact absurd (natRepr_digits '\n' h) (by decide)
      · exact absurd h (by decide)
      · exact hn_nl h
      · exact absurd h (by decide)
      · exact hs_nl h
      · exact absurd h (by decide)
      · exact absurd (hc_ok '\n' h).1 (by decide)
      · exact hfin_nl h
      · by_cases ht : req.tags.toList = []
        · rw [if_pos ht] at h
          simp at h
        · rw [if_neg ht] at h
          rcases List.mem_cons.mp h with h | h
          · exact absurd h (by decide)
          · exact ht_nl h
    have htag_arg : (if req.tags.toList = [] then ([] : List Char)
        else ' ' :: req.tags.toList) = [] ∨
        ∃ d, (if req.tags.toList = [] then ([] : List Char)
          else ' ' :: req.tags.toList).getLast? = some d ∧
            d.isWhitespace = false := by
      by_cases ht : req.tags.toList = []
      · exact Or.inl (by rw [if_pos ht])
      · obtain ⟨d, hd⟩ := getLast_exists_of_ne_nil ht
        refine Or.inr ⟨d, ?_, ht_last' d hd⟩
        rw [if_neg ht, getLast?_cons_of_ne ht, hd]
    have htrim_line := @line_trim_eq_self req.quantity brc.name.toList
      (strUpper brc.set_code).toList brc.collector_number.toList finL
      (if req.tags.toList = [] then [] else ' ' :: req.tags.toList)
      hc_ne (fun c hc => (hc_ok c hc).1) hfin_last htag_arg
    have hline_ne : natRepr req.quantity ++ ' ' :: (brc.name.toList ++
        ' ' :: '(' :: ((strUpper brc.set_code).toList ++ ')' :: ' ' ::
          (brc.collector_number.toList ++ finL ++
            (if req.tags.toList = [] then [] else ' ' :: req.tags.toList)))) ≠
        [] := by
      intro hx
      exact absurd (List.append_eq_nil.mp hx).2 (by simp)
    have hstr : formatForMoxfield ⟨true, some brc⟩ req =
        String.mk (natRepr req.quantity ++ ' ' :: (brc.name.toList ++
          ' ' :: '(' :: ((strUpper brc.set_code).toList ++ ')' :: ' ' ::
            (brc.collector_number.toList ++ finL ++
              (if req.tags.toList = [] then []
                else ' ' :: req.tags.toList))))) :=
      string_ext_toList hline
    rw [hstr]
    exact parseCardInput_single hnl_line htrim_line hline_ne hpl
  refine ⟨?_, hlook2, h3⟩
  rcases hfoil with h0 | h0 | h0
  · refine hparse_gen [] "" (Or.inl ⟨rfl, rfl⟩) ?_ h0.symm
    rw [hfmt, h0, moxfieldLine_toList, if_pos rfl, htagif]
  · refine hparse_gen [' ', '*', 'F', '*'] "F"
      (Or.inr ⟨'F', Or.inl rfl, rfl, rfl⟩) ?_ h0.symm
    rw [hfmt, h0, moxfieldLine_toList, htagif,
      if_neg (show ¬ ("F" : String) = "" by decide)]
    rfl
  · refine hparse_gen [' ', '*', 'E', '*'] "E"
      (Or.inr ⟨'E', Or.inr rfl, rfl, rfl⟩) ?_ h0.symm
    rw [hfmt, h0, moxfieldLine_toList, htagif,
      if_neg (show ¬ ("E" : String) = "" by decide)]
    rfl

/-- C4 counterexample: the spec's unconditional round-trip claim fails.  With a
catalog holding `B / C` (set `s1`, 2000) and `B` (set `s2`, 1990), the request
for `B / C` renders as `1 B / C (S1) 1`; re-parsing that line rewrites the
space-padded slash to ` // `, so the fresh lookup misses the exact name, falls
back to the `LIKE` query on the first word `B`, and under policy `oldest`
selects the other printing, rendering the different line `1 B (S2) 7`. -/
theorem claim_C4_cex :
    lookupCard cexReq (.ok cexRows) "oldest" =
      ⟨true, cexReq, some ⟨cexCardSlash, ""⟩⟩ ∧
    formatForMoxfield ⟨true, some ⟨cexCardSlash, ""⟩⟩ cexReq = "1 B / C (S1) 1" ∧
    parseCardInput "1 B / C (S1) 1" = [⟨"B // C", 1, "", ""⟩] ∧
    lookupCard ⟨"B // C", 1, "", ""⟩ (.ok cexRows) "oldest" =
      ⟨true, ⟨"B // C", 1, "", ""⟩, some ⟨cexCardB, ""⟩⟩ ∧
    formatForMoxfield ⟨true, some ⟨cexCardB, ""⟩⟩ ⟨"B // C", 1, "", ""⟩ =
      "1 B (S2) 7" ∧
    ("1 B (S2) 7" : String) ≠ "1 B / C (S1) 1" := by
  refine ⟨by decide, by decide, by decide, by decide, by decide, by decide⟩

/-- C4 witness: the corrected round trip at concrete inputs — a tagged request
for Serra Angel against a one-row catalog re-parses to its canonicalised form,
is found again, and re-renders to the identical line. -/
theorem claim_C4_witness :
    parseCardInput (formatForMoxfield ⟨true, some serraResult⟩ serraReq) =
      [roundReq serraReq serraResult] ∧
    lookupCard (roundReq serraReq serraResult) (.ok serraRows) "oldest" =
      ⟨true, roundReq serraReq serraResult, some serraResult⟩ ∧
    formatForMoxfield ⟨true, some serraResult⟩ (roundReq serraReq serraResult) =
      formatForMoxfield ⟨true, some serraResult⟩ serraReq :=
  claim_C4 serraReq serraRows "oldest" serraResult (by decide) (by decide)
    (by decide) (by decide) (by decide) (by decide) (by decide) (by decide)
    (by decide) (by decide) (by decide) (by decide) (by decide) (by decide)
    (by decide) (by decide) (by decide) (by decide) (by decide)
